import Mathlib

/-!
Verification of the lts-pin version-resolution policy engine and the
installed-package tree walker, shallowly embedded from `src/index.ts`
(current revision) and the legacy revision kept in the repository.

Registry responses, the filesystem and the semver parser are external
collaborators; they are modelled at their interfaces: the registry is a
function from package names to an optional list of raw version entries
(already classified by the semver parser as invalid / prerelease / stable),
the filesystem is a finite table of directory listings, symlink targets and
package-manifest names keyed by path strings.
-/

namespace LtsPin

/-- A parsed stable semantic version (prerelease identifiers are excluded
by the registry filter before any of the embedded logic runs). -/
structure SemVer where
  major : Nat
  minor : Nat
  patch : Nat
deriving DecidableEq, Repr

/-- A raw registry version entry, as classified by the semver collaborator:
`invalid` fails `semver.valid`, `pre` is valid but carries a prerelease
identifier, `stable` is valid with no prerelease identifier. -/
inductive RawVersion where
  | invalid : RawVersion
  | pre : SemVer → RawVersion
  | stable : SemVer → RawVersion
deriving DecidableEq, Repr

/-- The filter `semver.valid(v) && !semver.prerelease(v)` from
`fetchVersionInfo`: keep only stable versions. -/
def stableOf (raw : List RawVersion) : List SemVer :=
  raw.filterMap (fun r =>
    match r with
    | RawVersion.stable v => some v
    | _ => none)

/-- Strict semver precedence (lexicographic on major, minor, patch). -/
def svLtB (a b : SemVer) : Bool :=
  a.major < b.major ||
    (a.major == b.major &&
      (a.minor < b.minor || (a.minor == b.minor && a.patch < b.patch)))

/-- The ordering used by `sort(semver.rcompare)`: descending precedence.
`svGe a b` holds when `a` is not strictly below `b`. -/
def svGe (a b : SemVer) : Prop := svLtB a b = false

instance : DecidableRel svGe := fun a b => by
  unfold svGe; infer_instance

/-- `versions`: the registry keys filtered to stable versions and sorted in
descending precedence order, as in `fetchVersionInfo`. -/
def sortedStable (raw : List RawVersion) : List SemVer :=
  List.insertionSort svGe (stableOf raw)

/-- The `VersionInfo` record cached per package by `fetchVersionInfo`. -/
structure VersionInfo where
  latest : SemVer
  previous : SemVer
  orderedVersions : List SemVer
deriving DecidableEq, Repr

/-- The previous-version scan of `fetchVersionInfo` (lines 73-85): walk the
tail of the descending catalog for the first version whose major is strictly
below `latest`'s; if that candidate is a 0.x version use `latest` instead,
otherwise return the candidate; with no candidate, `previous` stays
`latest`. -/
def findPrev (latest : SemVer) : List SemVer → SemVer
  | [] => latest
  | c :: rest =>
    if c.major < latest.major then
      (if c.major = 0 then latest else c)
    else findPrev latest rest

/-- The pure core of `fetchVersionInfo`: given the raw registry entries,
filter, sort, and build the `VersionInfo` record; `none` when no stable
version remains (the `!versions.length` early return). -/
def fetchVersionInfoPure (raw : List RawVersion) : Option VersionInfo :=
  match sortedStable raw with
  | [] => none
  | latest :: rest =>
    some { latest := latest
           previous := findPrev latest rest
           orderedVersions := latest :: rest }

/-- Association-list lookup, modelling `Map.get` / keyed-object access. -/
def alookup {β : Type} : List (String × β) → String → Option β
  | [], _ => none
  | (k, v) :: rest, a => if k = a then some v else alookup rest a

/-- The process-wide `versionInfoCache` keyed by package name. -/
abbrev Cache := List (String × VersionInfo)

/-- Result of one `fetchVersionInfo` call: the returned catalog, the cache
after the call, and whether the registry collaborator was invoked. -/
structure FetchResult where
  res : Option VersionInfo
  cache : Cache
  called : Bool
deriving DecidableEq, Repr

/-- `fetchVersionInfo`: consult the cache first; on a miss ask the registry
(`reg name = none` models an axios error, caught and surfaced as `null`),
filter/sort/build, cache a successful catalog, and never cache `null`. -/
def fetchVersionInfo (reg : String → Option (List RawVersion))
    (cache : Cache) (name : String) : FetchResult :=
  match alookup cache name with
  | some info => ⟨some info, cache, false⟩
  | none =>
    match reg name with
    | none => ⟨none, cache, true⟩
    | some raw =>
      match fetchVersionInfoPure raw with
      | none => ⟨none, cache, true⟩
      | some info => ⟨some info, (name, info) :: cache, true⟩

/-- The catalog a fresh (uncached) fetch for `name` would produce. -/
def regResolve (reg : String → Option (List RawVersion)) (name : String) :
    Option VersionInfo :=
  (reg name).bind fetchVersionInfoPure

/-- A cache is consistent with a registry when every cached entry equals the
catalog a fresh fetch would compute (true of every cache state reachable in
a run that starts empty). -/
def consistentCache (reg : String → Option (List RawVersion))
    (cache : Cache) : Prop :=
  ∀ n i, alookup cache n = some i → regResolve reg n = some i

/-- The condition of the two-minor scan in `getTwoMinorDowngradedVersion`:
same major as `latest` and minor at most `latest.minor - 2` (JavaScript
subtraction, so an `Int` comparison). -/
def twoMinorPred (latest v : SemVer) : Bool :=
  v.major == latest.major && decide ((v.minor : Int) ≤ (latest.minor : Int) - 2)

/-- The pure core of `getTwoMinorDowngradedVersion` over a fetched catalog:
for a 0.x latest return the first major-0 entry; otherwise the first entry
two minors down within the same major; otherwise `info.previous` (the
`info.previous ?? info.latest` fallback; `previous` is always present). -/
def twoMinorDown (info : VersionInfo) : SemVer :=
  if info.latest.major = 0 then
    match info.orderedVersions.find? (fun v => v.major == 0) with
    | some v => v
    | none => info.latest
  else
    match info.orderedVersions.find? (twoMinorPred info.latest) with
    | some v => v
    | none => info.previous

/-- The fixed `whitelistPackages` set from the source. -/
def whitelist : List String :=
  ["@o7/icon", "svelte", "@sveltejs/vite-plugin-svelte", "@sveltejs/kit",
   "tailwindcss", "@tailwindcss/vite", "ua-parser-js", "kysely",
   "kysely-neon", "prisma-kysely", "@neondatabase/serverless",
   "@sveltejs/adapter-cloudflare", "@sveltejs/adapter-netlify",
   "@sveltejs/adapter-node", "@sveltejs/adapter-vercel", "json-2-csv",
   "ai", "esrap", "graceful-fs", "lru-cache"]

/-- Render a version back to its string form. -/
def vstr (v : SemVer) : String :=
  toString v.major ++ "." ++ toString v.minor ++ "." ++ toString v.patch

/-- The pin written into a direct dependency section: `>=<latest>` for a
whitelisted package, otherwise `<` followed by one more than the resolved
(previous) version's major. -/
def directPin (pkg : String) (info : VersionInfo) : String :=
  if whitelist.contains pkg then ">=" ++ vstr info.latest
  else "<" ++ toString (info.previous.major + 1)

/-- The pin written into the overrides section: `>=<latest>` for a
whitelisted package, otherwise the resolved two-minor-downgraded version
string exactly. -/
def overridePin (pkg : String) (info : VersionInfo) : String :=
  if whitelist.contains pkg then ">=" ++ vstr info.latest
  else vstr (twoMinorDown info)

/-- Keyed assignment `bucket[pkg] = v`: replace an existing entry in place,
else append. -/
def setKey : List (String × String) → String → String → List (String × String)
  | [], k, v => [(k, v)]
  | (k', v') :: rest, k, v =>
    if k' = k then (k, v) :: rest else (k', v') :: setKey rest k v

/-- The per-section loop of `updateToPreviousVersions` (lines 191-207):
resolve each declared package (latest for whitelisted, previous otherwise),
skip it on a null catalog, and rewrite its entry to the direct pin. -/
def processSection (reg : String → Option (List RawVersion)) :
    Cache → List (String × String) → List (String × String) × Cache
  | cache, [] => ([], cache)
  | cache, (pkg, old) :: rest =>
    let fr := fetchVersionInfo reg cache pkg
    let entry :=
      match fr.res with
      | none => (pkg, old)
      | some info => (pkg, directPin pkg info)
    let out := processSection reg fr.cache rest
    (entry :: out.1, out.2)

/-- The overrides loop of `updateToPreviousVersions` (lines 213-226): every
installed package with a non-null resolution gets an overrides entry (the
skip-already-declared check is commented out in the source). -/
def processOverrides (reg : String → Option (List RawVersion)) :
    Cache → List (String × String) → List String →
    List (String × String) × Cache
  | cache, bucket, [] => (bucket, cache)
  | cache, bucket, pkg :: rest =>
    let fr := fetchVersionInfo reg cache pkg
    match fr.res with
    | none => processOverrides reg fr.cache bucket rest
    | some info =>
      processOverrides reg fr.cache (setKey bucket pkg (overridePin pkg info)) rest

/-- The manifest structure consumed and produced by the run. -/
structure PackageJson where
  dependencies : List (String × String)
  devDependencies : List (String × String)
  peerDependencies : List (String × String)
  overrides : Option (List (String × String))
deriving DecidableEq, Repr

/-- The manifest-rewriting core of `updateToPreviousVersions`: pin the three
direct sections in order, then extend the (possibly fresh) overrides bucket
with one entry per installed package, threading the version cache through
the whole run (it starts empty). -/
def updateManifest (reg : String → Option (List RawVersion))
    (m : PackageJson) (installed : List String) : PackageJson × Cache :=
  let d := processSection reg [] m.dependencies
  let dv := processSection reg d.2 m.devDependencies
  let p := processSection reg dv.2 m.peerDependencies
  let ov0 := m.overrides.getD []
  let ov := processOverrides reg p.2 ov0 installed
  (⟨d.1, dv.1, p.1, some ov.1⟩, ov.2)

/-- A directory entry as returned by `readdir` with file types. -/
structure Dirent where
  name : String
  isDir : Bool
  isSymlink : Bool
deriving DecidableEq, Repr

/-- The filesystem collaborator, a finite table keyed by path strings:
`dirs` is `readdir` (absent key = I/O error), `realp` is `realpath`
(absent key = resolution failure), `pkgname` is the declared `name` field
of `<dir>/package.json` (absent key = unreadable or unparseable), and
`extant` lists the paths for which `access` succeeds. -/
structure FSModel where
  dirs : List (String × List Dirent)
  realp : List (String × String)
  pkgname : List (String × String)
  extant : List String

/-- `path.join` over the modelled path strings. -/
def pjoin (a b : String) : String := a ++ "/" ++ b

/-- The walker state: `queue` is `moduleQueue` with its head the next
element to pop (the source pops from the array's end, so pushes cons here),
`visitedM`/`visitedP` are the two visited sets, `collected` is the result
set in insertion order, and `scanned` records each directory whose listing
was processed, in order (instrumentation for the at-most-once property). -/
structure WalkSt where
  queue : List String
  visitedM : List String
  visitedP : List String
  collected : List String
  scanned : List String
deriving DecidableEq, Repr

/-- The initial walker state, seeded with the root `node_modules` path. -/
def initSt (rootNM : String) : WalkSt :=
  ⟨[rootNM], [], [], [], []⟩

/-- `enqueuePackageDir`: skip an already-visited package directory, else
mark it visited, record its manifest name when readable, and push its own
nested `node_modules` onto the work queue. -/
def enqueuePkg (fs : FSModel) (st : WalkSt) (pkgDir : String) : WalkSt :=
  if pkgDir ∈ st.visitedP then st
  else
    { st with
      visitedP := pkgDir :: st.visitedP
      collected :=
        match alookup fs.pkgname pkgDir with
        | some n => if n ∈ st.collected then st.collected else st.collected ++ [n]
        | none => st.collected
      queue := pjoin pkgDir "node_modules" :: st.queue }

/-- The scope-container loop (lines 311-314): every scoped entry that is a
directory or a symbolic link is enqueued at its joined path. -/
def processScoped (fs : FSModel) (entryPath : String) (st : WalkSt)
    (sds : List Dirent) : WalkSt :=
  sds.foldl
    (fun st d =>
      if d.isDir || d.isSymlink then enqueuePkg fs st (pjoin entryPath d.name)
      else st)
    st

/-- The scope-container test `name.startsWith('@')`, expressed on the
string's characters so it evaluates in the kernel. -/
def isScopeName (s : String) : Bool :=
  match s.data with
  | [] => false
  | c :: _ => c == '@'

/-- Handling of one directory entry (lines 299-326): skip `.bin`; a plain
directory is a candidate package; a scope container is listed one level
down; a symbolic link is resolved with `realpath` and skipped silently on
failure; anything else is ignored. -/
def processDirent (fs : FSModel) (modulesDir : String) (st : WalkSt)
    (d : Dirent) : WalkSt :=
  if d.name = ".bin" then st
  else
    let entryPath := pjoin modulesDir d.name
    if d.isDir then
      if isScopeName d.name then
        match alookup fs.dirs entryPath with
        | none => st
        | some sds => processScoped fs entryPath st sds
      else enqueuePkg fs st entryPath
    else if d.isSymlink then
      match alookup fs.realp entryPath with
      | some resolved => enqueuePkg fs st resolved
      | none => st
    else st

/-- The `while (moduleQueue.length)` loop of `collectInstalledPackages`,
with explicit fuel (one unit per iteration): pop, skip if visited, mark
visited, list the directory (an unreadable directory contributes nothing),
and process each entry. -/
def walkLoop (fs : FSModel) : Nat → WalkSt → WalkSt
  | 0, st => st
  | fuel + 1, st =>
    match st.queue with
    | [] => st
    | m :: rest =>
      if m ∈ st.visitedM then walkLoop fs fuel { st with queue := rest }
      else
        let st1 := { st with queue := rest, visitedM := m :: st.visitedM }
        match alookup fs.dirs m with
        | none => walkLoop fs fuel st1
        | some ds =>
          walkLoop fs fuel
            (ds.foldl (processDirent fs m) { st1 with scanned := st1.scanned ++ [m] })

/-- `collectInstalledPackages`: empty result when the root `node_modules`
does not exist, else run the walk (at the given fuel) and return the
collected names. -/
def collectInstalledPackages (fs : FSModel) (rootDir : String) (fuel : Nat) :
    List String :=
  if pjoin rootDir "node_modules" ∈ fs.extant then
    (walkLoop fs fuel (initSt (pjoin rootDir "node_modules"))).collected
  else []

/-- The directories the walk can reach from the seed, tagged: `true` marks
module (`node_modules`) directories handed to the queue, `false` marks
candidate package directories. Module directories are the seed and the
nested `node_modules` of every reachable package directory; package
directories are the plain entries of a reachable module directory, the
scoped entries one level beneath a scope container, and the `realpath`
targets of top-level symbolic links; the `.bin` entry is excluded. -/
inductive Reach (fs : FSModel) (rootNM : String) : Bool → String → Prop
  | root : Reach fs rootNM true rootNM
  | ofPkg (p : String) : Reach fs rootNM false p →
      Reach fs rootNM true (pjoin p "node_modules")
  | plain (m : String) (ds : List Dirent) (d : Dirent) :
      Reach fs rootNM true m → alookup fs.dirs m = some ds → d ∈ ds →
      d.name ≠ ".bin" → d.isDir = true → isScopeName d.name = false →
      Reach fs rootNM false (pjoin m d.name)
  | scope (m : String) (ds : List Dirent) (d : Dirent)
      (sds : List Dirent) (s : Dirent) :
      Reach fs rootNM true m → alookup fs.dirs m = some ds → d ∈ ds →
      d.name ≠ ".bin" → d.isDir = true → isScopeName d.name = true →
      alookup fs.dirs (pjoin m d.name) = some sds → s ∈ sds →
      (s.isDir = true ∨ s.isSymlink = true) →
      Reach fs rootNM false (pjoin (pjoin m d.name) s.name)
  | link (m : String) (ds : List Dirent) (d : Dirent) (t : String) :
      Reach fs rootNM true m → alookup fs.dirs m = some ds → d ∈ ds →
      d.name ≠ ".bin" → d.isDir = false → d.isSymlink = true →
      alookup fs.realp (pjoin m d.name) = some t →
      Reach fs rootNM false t

/-- A reachable candidate package directory. -/
def ReachP (fs : FSModel) (rootNM p : String) : Prop :=
  Reach fs rootNM false p

/-- Keys with an entry in a table but not yet in a visited list: the
decreasing measure of the walk. -/
def remainingKeys (keys vis : List String) : Nat :=
  (keys.filter (fun k => decide (k ∉ vis))).length

/-- The parts of the walker state that only ever grow during entry
processing. -/
def stepMono (st st' : WalkSt) : Prop :=
  (∀ x ∈ st.queue, x ∈ st'.queue) ∧
  (∀ x ∈ st.visitedP, x ∈ st'.visitedP) ∧
  (∀ x ∈ st.collected, x ∈ st'.collected)

/-- Soundness invariant of the walk: every queued module directory, every
visited package directory and every collected name is justified by the
reachability relation. -/
def SoundSt (fs : FSModel) (rootNM : String) (st : WalkSt) : Prop :=
  (∀ m ∈ st.queue, Reach fs rootNM true m) ∧
  (∀ p ∈ st.visitedP, Reach fs rootNM false p) ∧
  (∀ x ∈ st.collected, ∃ p, Reach fs rootNM false p ∧
    alookup fs.pkgname p = some x)

/-- All successors of a listed directory have been recorded as package
directories. -/
def DirentsDone (fs : FSModel) (m : String) (ds : List Dirent)
    (vp : List String) : Prop :=
  ∀ d ∈ ds, d.name ≠ ".bin" →
    (d.isDir = true → isScopeName d.name = false → pjoin m d.name ∈ vp) ∧
    (d.isDir = true → isScopeName d.name = true →
      ∀ sds, alookup fs.dirs (pjoin m d.name) = some sds →
        ∀ s ∈ sds, s.isDir = true ∨ s.isSymlink = true →
          pjoin (pjoin m d.name) s.name ∈ vp) ∧
    (d.isDir = false → d.isSymlink = true →
      ∀ t, alookup fs.realp (pjoin m d.name) = some t → t ∈ vp)

/-- Completeness invariant of the walk: every visited package directory
has its nested `node_modules` pending or processed, every processed module
directory has all its successors recorded, and every recorded package
directory has its manifest name collected. -/
def ClosedSt (fs : FSModel) (st : WalkSt) : Prop :=
  (∀ p ∈ st.visitedP,
    pjoin p "node_modules" ∈ st.visitedM ∨ pjoin p "node_modules" ∈ st.queue) ∧
  (∀ m ∈ st.visitedM, ∀ ds, alookup fs.dirs m = some ds →
    DirentsDone fs m ds st.visitedP) ∧
  (∀ p ∈ st.visitedP, ∀ x, alookup fs.pkgname p = some x → x ∈ st.collected)

/-- Pointwise dirent-list permutation between two directory tables (same
keys in the same table order, each listing permuted). -/
def dirsPermEquiv : List (String × List Dirent) → List (String × List Dirent) → Bool
  | [], [] => true
  | (k, ds) :: t, (k', ds') :: t' =>
    k == k' && decide (ds.Perm ds') && dirsPermEquiv t t'
  | _, _ => false

/-- Two filesystem models that differ only in the order in which each
directory lists its entries. -/
def FSPermEquiv (fs fs' : FSModel) : Prop :=
  dirsPermEquiv fs.dirs fs'.dirs = true ∧ fs.realp = fs'.realp ∧
    fs.pkgname = fs'.pkgname ∧ fs.extant = fs'.extant

/-- The previous-version selector of the legacy revision
(`unnamed/part_000` lines 27-55), over the filtered descending catalog:
first the lower-major scan (with the 0.x guard), then the same-major
lower-minor scan, then `latest`. -/
def legacyFindMajor (latest : SemVer) : List SemVer → Option SemVer
  | [] => none
  | c :: rest =>
    if c.major < latest.major then
      some (if c.major = 0 then latest else c)
    else legacyFindMajor latest rest

/-- The same-major strictly-lower-minor scan of the legacy revision. -/
def legacyFindMinor (latest : SemVer) : List SemVer → Option SemVer
  | [] => none
  | c :: rest =>
    if c.major = latest.major ∧ c.minor < latest.minor then some c
    else legacyFindMinor latest rest

/-- The legacy `getPreviousVersion` body over the sorted stable catalog. -/
def getPreviousVersionLegacy (vs : List SemVer) : Option SemVer :=
  match vs with
  | [] => none
  | [v] => some v
  | latest :: rest =>
    match legacyFindMajor latest rest with
    | some r => some r
    | none =>
      match legacyFindMinor latest rest with
      | some r => some r
      | none => some latest

/-! ### Concrete fixtures used by the witnesses -/

/-- Registry catalog `["1.3.0","1.2.0","1.1.0"]` (the end-to-end scenario). -/
def c1raw : List RawVersion :=
  [RawVersion.stable ⟨1, 3, 0⟩, RawVersion.stable ⟨1, 2, 0⟩,
   RawVersion.stable ⟨1, 1, 0⟩]

/-- The catalog `fetchVersionInfo` computes from `c1raw`. -/
def c1info : VersionInfo :=
  ⟨⟨1, 3, 0⟩, ⟨1, 3, 0⟩, [⟨1, 3, 0⟩, ⟨1, 2, 0⟩, ⟨1, 1, 0⟩]⟩

/-- Registry catalog `["2.1.0","2.0.0","1.5.0","1.0.0"]`. -/
def c2raw : List RawVersion :=
  [RawVersion.stable ⟨2, 1, 0⟩, RawVersion.stable ⟨2, 0, 0⟩,
   RawVersion.stable ⟨1, 5, 0⟩, RawVersion.stable ⟨1, 0, 0⟩]

/-- The catalog `fetchVersionInfo` computes from `c2raw`. -/
def c2info : VersionInfo :=
  ⟨⟨2, 1, 0⟩, ⟨1, 5, 0⟩, [⟨2, 1, 0⟩, ⟨2, 0, 0⟩, ⟨1, 5, 0⟩, ⟨1, 0, 0⟩]⟩

/-- Registry catalog `["3.4.0","3.3.0","3.2.0","3.1.0","3.0.0"]`. -/
def c3raw : List RawVersion :=
  [RawVersion.stable ⟨3, 4, 0⟩, RawVersion.stable ⟨3, 3, 0⟩,
   RawVersion.stable ⟨3, 2, 0⟩, RawVersion.stable ⟨3, 1, 0⟩,
   RawVersion.stable ⟨3, 0, 0⟩]

/-- The catalog `fetchVersionInfo` computes from `c3raw`. -/
def c3info : VersionInfo :=
  ⟨⟨3, 4, 0⟩, ⟨3, 4, 0⟩,
   [⟨3, 4, 0⟩, ⟨3, 3, 0⟩, ⟨3, 2, 0⟩, ⟨3, 1, 0⟩, ⟨3, 0, 0⟩]⟩

/-- A registry knowing `left-pad` (catalog `c1raw`) and `svelte`
(whitelisted, single version 4.2.0). -/
def c4reg : String → Option (List RawVersion) := fun n =>
  if n = "left-pad" then some c1raw
  else if n = "svelte" then some [RawVersion.stable ⟨4, 2, 0⟩]
  else none

/-- The catalog `c4reg` yields for `svelte`. -/
def c4svInfo : VersionInfo := ⟨⟨4, 2, 0⟩, ⟨4, 2, 0⟩, [⟨4, 2, 0⟩]⟩

/-- A manifest declaring `left-pad` and `svelte` as direct dependencies. -/
def c4m : PackageJson :=
  ⟨[("left-pad", "^1.3.0"), ("svelte", "^4.0.0")], [], [], none⟩

/-- A registry where `empty` has only unstable versions and every other
package errors. -/
def c6reg : String → Option (List RawVersion) := fun n =>
  if n = "empty" then some [RawVersion.invalid, RawVersion.pre ⟨1, 0, 0⟩]
  else none

/-- A manifest where `left-pad` is both a direct dependency and already
present in the overrides section with a stale value. -/
def c10m : PackageJson :=
  ⟨[("left-pad", "^1.0.0")], [], [], some [("left-pad", "9.9.9")]⟩

/-- An installation tree with a symbolic link whose real target path equals
an ancestor package directory (a cyclic linked install). -/
def c7fs : FSModel :=
  ⟨[("r/node_modules", [⟨"p", true, false⟩]),
    ("r/node_modules/p/node_modules", [⟨"l", false, true⟩])],
   [("r/node_modules/p/node_modules/l", "r/node_modules/p")],
   [("r/node_modules/p", "a")],
   ["r/node_modules"]⟩

/-- An installation tree where the scope container `@s` holds a symbolic
link `l` whose real target path is the ancestor project root `r`. Because
the walker joins scoped symlinks without resolving them, the alias path
`r/node_modules/@s/l/node_modules` denotes the same physical directory as
`r/node_modules`; the table records the listing the filesystem serves at
both keys (identical, as `readdir` follows the symlink), the `realpath`
answers identifying the aliases, and the manifest names visible at each
key, with the alias family cut off at the depth this run reaches. -/
def c7bad : FSModel :=
  ⟨[("r/node_modules", [⟨"a", true, false⟩, ⟨"@s", true, false⟩]),
    ("r/node_modules/@s", [⟨"l", false, true⟩]),
    ("r/node_modules/@s/l/node_modules",
     [⟨"a", true, false⟩, ⟨"@s", true, false⟩]),
    ("r/node_modules/@s/l/node_modules/@s", [⟨"l", false, true⟩])],
   [("r/node_modules/@s/l", "r"),
    ("r/node_modules/@s/l/node_modules", "r/node_modules"),
    ("r/node_modules/@s/l/node_modules/a", "r/node_modules/a"),
    ("r/node_modules/@s/l/node_modules/@s/l", "r")],
   [("r", "root"), ("r/node_modules/a", "a"),
    ("r/node_modules/@s/l", "root"),
    ("r/node_modules/@s/l/node_modules/a", "a"),
    ("r/node_modules/@s/l/node_modules/@s/l", "root")],
   ["r/node_modules"]⟩

/-- An installation tree with a `.bin` stub entry and two packages. -/
def c8fs : FSModel :=
  ⟨[("r/node_modules",
     [⟨".bin", true, false⟩, ⟨"x", true, false⟩, ⟨"y", true, false⟩])],
   [],
   [("r/node_modules/x", "x"), ("r/node_modules/y", "y"),
    ("r/node_modules/.bin", "binpkg")],
   ["r/node_modules"]⟩

/-- `c8fs` with the directory listing in a different order. -/
def c8fsPerm : FSModel :=
  ⟨[("r/node_modules",
     [⟨"y", true, false⟩, ⟨"x", true, false⟩, ⟨".bin", true, false⟩])],
   [],
   [("r/node_modules/x", "x"), ("r/node_modules/y", "y"),
    ("r/node_modules/.bin", "binpkg")],
   ["r/node_modules"]⟩

/-- A filesystem with no installation tree at all. -/
def c8fsNone : FSModel := ⟨[], [], [], []⟩

/-- An installation tree where a scope container holds a symbolic-link
entry whose real target path (`X`) carries a different manifest name than
the joined symlink path does. -/
def c9fs : FSModel :=
  ⟨[("r/node_modules", [⟨"@s", true, false⟩]),
    ("r/node_modules/@s", [⟨"p", false, true⟩])],
   [("r/node_modules/@s/p", "X")],
   [("r/node_modules/@s/p", "a"), ("X", "b")],
   ["r/node_modules"]⟩

/-! ### Basic facts about the catalog construction -/

/-- A fetched catalog has its latest version at the head of the ordered
list and its previous version computed by the lower-major scan on the
tail. -/
theorem fetchPure_shape {raw : List RawVersion} {info : VersionInfo}
    (h : fetchVersionInfoPure raw = some info) :
    ∃ rest, info.orderedVersions = info.latest :: rest ∧
      info.previous = findPrev info.latest rest := by
  unfold fetchVersionInfoPure at h
  cases hs : sortedStable raw with
  | nil => rw [hs] at h; exact absurd h (by simp)
  | cons latest rest =>
    rw [hs] at h
    cases h
    exact ⟨rest, rfl, rfl⟩

/-- The lower-major scan stops at the first qualifying element. -/
theorem findPrev_append (latest : SemVer) (l₁ : List SemVer) (c : SemVer)
    (l₂ : List SemVer) (h₁ : ∀ x ∈ l₁, ¬ x.major < latest.major)
    (hc : c.major < latest.major) :
    findPrev latest (l₁ ++ c :: l₂) = if c.major = 0 then latest else c := by
  induction l₁ with
  | nil => simp [findPrev, hc]
  | cons a t ih =>
    have ha := h₁ a (by simp)
    simp only [List.cons_append, findPrev, if_neg ha]
    exact ih (fun x hx => h₁ x (List.mem_cons_of_mem a hx))

/-- `find?` returns the first element satisfying the predicate. -/
theorem find?_first {α : Type} (p : α → Bool) (l₁ : List α) (c : α)
    (l₂ : List α) (h₁ : ∀ x ∈ l₁, p x = false) (hc : p c = true) :
    (l₁ ++ c :: l₂).find? p = some c := by
  induction l₁ with
  | nil => simp [List.find?_cons, hc]
  | cons a t ih =>
    have ha := h₁ a (by simp)
    rw [List.cons_append, List.find?_cons, ha]
    exact ih (fun x hx => h₁ x (List.mem_cons_of_mem a hx))

/-! ### Claims C1, C2, C3: the selection policies -/

/-- C1 (code bug): on the catalog `["1.3.0","1.2.0","1.1.0"]` — no
lower-major candidate, but `1.2.0` has the same major and a lower minor —
the current `fetchVersionInfo`/`getPreviousVersion` yields `previous =
latest = 1.3.0`: the same-major lower-minor scan the claim describes does
not exist in the current revision. The legacy revision's
`getPreviousVersion` (and the function's own doc comment and the README)
does select `1.2.0`. -/
theorem c1_previous_minor_scan_missing :
    fetchVersionInfoPure c1raw = some c1info ∧
    c1info.latest = ⟨1, 3, 0⟩ ∧ c1info.previous = ⟨1, 3, 0⟩ ∧
    getPreviousVersionLegacy [⟨1, 3, 0⟩, ⟨1, 2, 0⟩, ⟨1, 1, 0⟩] =
      some ⟨1, 2, 0⟩ := by
  decide

/-- C2: on a fetched catalog, the previous-version selection scans the
ordered versions from index 1 and, at the first version whose major is
strictly below latest's, returns latest when that candidate's major is 0
and the candidate itself otherwise. -/
theorem c2_previous_first_lower_major (raw : List RawVersion)
    (info : VersionInfo) (h : fetchVersionInfoPure raw = some info)
    (l₁ : List SemVer) (c : SemVer) (l₂ : List SemVer)
    (hsplit : info.orderedVersions = info.latest :: (l₁ ++ c :: l₂))
    (hfirst : ∀ x ∈ l₁, ¬ x.major < info.latest.major)
    (hc : c.major < info.latest.major) :
    info.previous = if c.major = 0 then info.latest else c := by
  obtain ⟨rest, hord, hprev⟩ := fetchPure_shape h
  rw [hord] at hsplit
  have hrest : rest = l₁ ++ c :: l₂ := by
    exact (List.cons.injEq _ _ _ _).mp hsplit |>.2
  rw [hprev, hrest]
  exact findPrev_append _ _ _ _ hfirst hc

/-- C2 witness: the catalog `[2.1.0, 2.0.0, 1.5.0, 1.0.0]` selects
`1.5.0`. -/
theorem c2_witness :
    fetchVersionInfoPure c2raw = some c2info ∧
    c2info.previous = ⟨1, 5, 0⟩ := by
  refine ⟨by decide, ?_⟩
  have h := c2_previous_first_lower_major c2raw c2info (by decide)
    [⟨2, 0, 0⟩] ⟨1, 5, 0⟩ [⟨1, 0, 0⟩] (by decide) (by decide) (by decide)
  simpa using h

/-- C3: the two-minor step-down policy on a fetched catalog: latest when
latest is 0.x; else the first version with the same major and minor at
most latest's minor minus two; else the previous-major-or-minor result
(`info.previous`) for the same catalog. -/
theorem c3_two_minor_step_down (raw : List RawVersion) (info : VersionInfo)
    (h : fetchVersionInfoPure raw = some info) :
    (info.latest.major = 0 → twoMinorDown info = info.latest) ∧
    (∀ l₁ c l₂, info.latest.major ≠ 0 →
      info.orderedVersions = l₁ ++ c :: l₂ →
      (∀ x ∈ l₁, twoMinorPred info.latest x = false) →
      twoMinorPred info.latest c = true →
      twoMinorDown info = c) ∧
    (info.latest.major ≠ 0 →
      (∀ v ∈ info.orderedVersions, twoMinorPred info.latest v = false) →
      twoMinorDown info = info.previous) := by
  obtain ⟨rest, hord, _⟩ := fetchPure_shape h
  refine ⟨?_, ?_, ?_⟩
  · intro h0
    rw [twoMinorDown, if_pos h0, hord, List.find?_cons]
    simp [h0]
  · intro l₁ c l₂ h0 hsplit hf hc
    rw [twoMinorDown, if_neg h0, hsplit, find?_first _ _ _ _ hf hc]
  · intro h0 hall
    rw [twoMinorDown, if_neg h0,
      List.find?_eq_none.mpr (fun v hv => by simp [hall v hv])]

/-- C3 witness: the catalog `[3.4.0, 3.3.0, 3.2.0, 3.1.0, 3.0.0]` steps
down to `3.2.0`. -/
theorem c3_witness :
    fetchVersionInfoPure c3raw = some c3info ∧
    twoMinorDown c3info = ⟨3, 2, 0⟩ := by
  refine ⟨by decide, ?_⟩
  exact (c3_two_minor_step_down c3raw c3info (by decide)).2.1
    [⟨3, 4, 0⟩, ⟨3, 3, 0⟩] ⟨3, 2, 0⟩ [⟨3, 1, 0⟩, ⟨3, 0, 0⟩]
    (by decide) (by decide) (by decide) (by decide)

/-! ### Cache behavior -/

/-- A cache hit short-circuits the fetch: cached value, unchanged cache,
no registry call. -/
theorem fetch_hit {reg : String → Option (List RawVersion)} {cache : Cache}
    {name : String} {info : VersionInfo}
    (h : alookup cache name = some info) :
    fetchVersionInfo reg cache name = ⟨some info, cache, false⟩ := by
  unfold fetchVersionInfo
  rw [h]

/-- A cache miss with a registry error yields a null result and an
unchanged cache. -/
theorem fetch_miss_err {reg : String → Option (List RawVersion)}
    {cache : Cache} {name : String} (h1 : alookup cache name = none)
    (h2 : reg name = none) :
    fetchVersionInfo reg cache name = ⟨none, cache, true⟩ := by
  unfold fetchVersionInfo
  rw [h1, h2]

/-- A cache miss whose response has no stable version yields a null result
and an unchanged cache. -/
theorem fetch_miss_nopure {reg : String → Option (List RawVersion)}
    {cache : Cache} {name : String} {raw : List RawVersion}
    (h1 : alookup cache name = none) (h2 : reg name = some raw)
    (h3 : fetchVersionInfoPure raw = none) :
    fetchVersionInfo reg cache name = ⟨none, cache, true⟩ := by
  unfold fetchVersionInfo
  simp only [h1, h2, h3]

/-- A cache miss with a usable response computes and caches the catalog. -/
theorem fetch_miss_ok {reg : String → Option (List RawVersion)}
    {cache : Cache} {name : String} {raw : List RawVersion}
    {info : VersionInfo} (h1 : alookup cache name = none)
    (h2 : reg name = some raw) (h3 : fetchVersionInfoPure raw = some info) :
    fetchVersionInfo reg cache name =
      ⟨some info, (name, info) :: cache, true⟩ := by
  unfold fetchVersionInfo
  simp only [h1, h2, h3]

/-- A successful fetch leaves its catalog in the resulting cache. -/
theorem fetch_caches_hit {reg : String → Option (List RawVersion)}
    {cache : Cache} {name : String} {info : VersionInfo}
    (h : (fetchVersionInfo reg cache name).res = some info) :
    alookup (fetchVersionInfo reg cache name).cache name = some info := by
  cases hl : alookup cache name with
  | some i =>
    rw [fetch_hit hl] at h ⊢
    have hi : i = info := by simpa using h
    rw [hl, hi]
  | none =>
    cases hr : reg name with
    | none => rw [fetch_miss_err hl hr] at h; cases h
    | some raw =>
      cases hp : fetchVersionInfoPure raw with
      | none => rw [fetch_miss_nopure hl hr hp] at h; cases h
      | some i =>
        rw [fetch_miss_ok hl hr hp] at h ⊢
        simp only [alookup, if_pos rfl]
        simpa using h

/-- A fetch never removes or replaces an existing cache entry. -/
theorem fetch_cache_mono {reg : String → Option (List RawVersion)}
    {cache : Cache} {name m : String} {i : VersionInfo}
    (h : alookup cache m = some i) :
    alookup (fetchVersionInfo reg cache name).cache m = some i := by
  cases hl : alookup cache name with
  | some j => rw [fetch_hit hl]; exact h
  | none =>
    cases hr : reg name with
    | none => rw [fetch_miss_err hl hr]; exact h
    | some raw =>
      cases hp : fetchVersionInfoPure raw with
      | none => rw [fetch_miss_nopure hl hr hp]; exact h
      | some info =>
        rw [fetch_miss_ok hl hr hp]
        have hne : name ≠ m := by
          intro he; rw [he] at hl; rw [hl] at h; cases h
        simpa [alookup, hne] using h

/-- Under a consistent cache, a fetch returns exactly the catalog a fresh
registry resolution would produce. -/
theorem fetch_res_consistent {reg : String → Option (List RawVersion)}
    {cache : Cache} (name : String) (h : consistentCache reg cache) :
    (fetchVersionInfo reg cache name).res = regResolve reg name := by
  cases hl : alookup cache name with
  | some i =>
    rw [fetch_hit hl]
    exact (h name i hl).symm
  | none =>
    cases hr : reg name with
    | none =>
      rw [fetch_miss_err hl hr]
      simp [regResolve, hr]
    | some raw =>
      cases hp : fetchVersionInfoPure raw with
      | none =>
        rw [fetch_miss_nopure hl hr hp]
        simp [regResolve, hr, hp]
      | some info =>
        rw [fetch_miss_ok hl hr hp]
        simp [regResolve, hr, hp]

/-- A fetch preserves cache consistency. -/
theorem fetch_consistent_pres {reg : String → Option (List RawVersion)}
    {cache : Cache} (name : String) (h : consistentCache reg cache) :
    consistentCache reg (fetchVersionInfo reg cache name).cache := by
  cases hl : alookup cache name with
  | some i => rw [fetch_hit hl]; exact h
  | none =>
    cases hr : reg name with
    | none => rw [fetch_miss_err hl hr]; exact h
    | some raw =>
      cases hp : fetchVersionInfoPure raw with
      | none => rw [fetch_miss_nopure hl hr hp]; exact h
      | some info =>
        rw [fetch_miss_ok hl hr hp]
        intro n i hn
        by_cases hne : name = n
        · subst hne
          simp only [alookup, if_pos rfl] at hn
          rw [← Option.some.injEq _ _ |>.mp hn]
          simp [regResolve, hr, hp]
        · exact h n i (by simpa [alookup, hne] using hn)

/-- The empty cache is consistent with every registry. -/
theorem consistent_nil (reg : String → Option (List RawVersion)) :
    consistentCache reg [] := by
  intro n i h
  simp [alookup] at h

/-! ### The direct-section and overrides passes -/

/-- Under a consistent cache, the per-section pass rewrites each entry
pointwise: entries whose resolution fails are kept, the rest get the
direct pin. -/
theorem processSection_fst {reg : String → Option (List RawVersion)} :
    ∀ {cache : Cache} {bucket : List (String × String)},
    consistentCache reg cache →
    (processSection reg cache bucket).1 = bucket.map (fun pe =>
      match regResolve reg pe.1 with
      | none => pe
      | some info => (pe.1, directPin pe.1 info)) := by
  intro cache bucket
  induction bucket generalizing cache with
  | nil => intro _; rfl
  | cons pe rest ih =>
    intro h
    obtain ⟨pkg, old⟩ := pe
    have hres := fetch_res_consistent pkg h
    have ht := ih (fetch_consistent_pres pkg h)
    simp only [processSection, List.map_cons]
    rw [hres, ht]

/-- The per-section pass preserves cache consistency. -/
theorem processSection_consistent {reg : String → Option (List RawVersion)} :
    ∀ (cache : Cache) (bucket : List (String × String)),
    consistentCache reg cache →
    consistentCache reg (processSection reg cache bucket).2 := by
  intro cache bucket
  induction bucket generalizing cache with
  | nil => exact fun h => h
  | cons pe rest ih =>
    intro h
    exact ih _ (fetch_consistent_pres pe.1 h)

/-- Writing a key stores its value. -/
theorem alookup_setKey_self (b : List (String × String)) (k v : String) :
    alookup (setKey b k v) k = some v := by
  induction b with
  | nil => simp [setKey, alookup]
  | cons pe rest ih =>
    obtain ⟨k', v'⟩ := pe
    by_cases he : k' = k
    · simp [setKey, he, alookup]
    · simp [setKey, he, alookup, ih]

/-- Writing a key leaves other keys unchanged. -/
theorem alookup_setKey_other (b : List (String × String)) (k v q : String)
    (h : q ≠ k) : alookup (setKey b k v) q = alookup b q := by
  have hk : k ≠ q := Ne.symm h
  induction b with
  | nil => simp [setKey, alookup, hk]
  | cons pe rest ih =>
    obtain ⟨k', v'⟩ := pe
    by_cases he : k' = k
    · subst he
      simp [setKey, alookup, hk]
    · by_cases hq : k' = q
      · simp [setKey, he, alookup, hq, hk, h]
      · simp [setKey, he, alookup, hq, ih]

/-- The overrides pass leaves keys outside the installed list untouched. -/
theorem processOverrides_lookup_of_not_mem
    {reg : String → Option (List RawVersion)} :
    ∀ {cache : Cache} {bucket : List (String × String)}
    {installed : List String} {pkg : String}, pkg ∉ installed →
    alookup (processOverrides reg cache bucket installed).1 pkg =
      alookup bucket pkg := by
  intro cache bucket installed
  induction installed generalizing cache bucket with
  | nil => intro pkg _; rfl
  | cons q rest ih =>
    intro pkg hmem
    have hq : pkg ≠ q := fun he => hmem (he ▸ List.mem_cons_self q rest)
    have hrest : pkg ∉ rest := fun hr => hmem (List.mem_cons_of_mem q hr)
    simp only [processOverrides]
    cases hr : (fetchVersionInfo reg cache q).res with
    | none => exact ih hrest
    | some info => rw [ih hrest, alookup_setKey_other _ _ _ _ hq]

/-- The overrides pass preserves cache consistency. -/
theorem processOverrides_consistent
    {reg : String → Option (List RawVersion)} :
    ∀ {cache : Cache} {bucket : List (String × String)}
    {installed : List String}, consistentCache reg cache →
    consistentCache reg (processOverrides reg cache bucket installed).2 := by
  intro cache bucket installed
  induction installed generalizing cache bucket with
  | nil => exact fun h => h
  | cons q rest ih =>
    intro h
    simp only [processOverrides]
    cases hr : (fetchVersionInfo reg cache q).res with
    | none => exact ih (fetch_consistent_pres q h)
    | some info => exact ih (fetch_consistent_pres q h)

/-- Every installed package whose resolution succeeds ends up in the
overrides bucket with its override pin, whatever was there before. -/
theorem processOverrides_lookup {reg : String → Option (List RawVersion)} :
    ∀ (cache : Cache) (bucket : List (String × String))
    (installed : List String) (pkg : String) (info : VersionInfo),
    consistentCache reg cache → pkg ∈ installed →
    regResolve reg pkg = some info →
    alookup (processOverrides reg cache bucket installed).1 pkg =
      some (overridePin pkg info) := by
  intro cache bucket installed pkg info
  induction installed generalizing cache bucket with
  | nil => intro _ hmem _; cases hmem
  | cons q rest ih =>
    intro h hmem hres
    simp only [processOverrides]
    by_cases hrest : pkg ∈ rest
    · cases hr : (fetchVersionInfo reg cache q).res with
      | none => exact ih _ _ (fetch_consistent_pres q h) hrest hres
      | some infoq => exact ih _ _ (fetch_consistent_pres q h) hrest hres
    · have hq : pkg = q := by
        cases List.mem_cons.mp hmem with
        | inl he => exact he
        | inr hr => exact absurd hr hrest
      subst hq
      have hr : (fetchVersionInfo reg cache pkg).res = some info := by
        rw [fetch_res_consistent pkg h]; exact hres
      rw [hr, processOverrides_lookup_of_not_mem hrest,
        alookup_setKey_self]

/-! ### Claims C4, C5, C6, C10: rendering, memoization, skipping -/

/-- C4: whenever a direct dependency resolves, its entry is rewritten to
`>=<latest>` if whitelisted and `<(major of resolved previous) + 1>`
otherwise; whenever an installed package resolves, its overrides entry is
the exact two-minor-downgraded version string, or `>=<latest>` if
whitelisted. -/
theorem c4_pin_rendering (reg : String → Option (List RawVersion))
    (m : PackageJson) (installed : List String) (pkg : String)
    (info : VersionInfo) (hres : regResolve reg pkg = some info) :
    (∀ old, (pkg, old) ∈ m.dependencies →
      (pkg, if whitelist.contains pkg then ">=" ++ vstr info.latest
            else "<" ++ toString (info.previous.major + 1)) ∈
        (updateManifest reg m installed).1.dependencies) ∧
    (∀ old, (pkg, old) ∈ m.devDependencies →
      (pkg, if whitelist.contains pkg then ">=" ++ vstr info.latest
            else "<" ++ toString (info.previous.major + 1)) ∈
        (updateManifest reg m installed).1.devDependencies) ∧
    (∀ old, (pkg, old) ∈ m.peerDependencies →
      (pkg, if whitelist.contains pkg then ">=" ++ vstr info.latest
            else "<" ++ toString (info.previous.major + 1)) ∈
        (updateManifest reg m installed).1.peerDependencies) ∧
    (pkg ∈ installed →
      alookup ((updateManifest reg m installed).1.overrides.getD []) pkg =
        some (if whitelist.contains pkg then ">=" ++ vstr info.latest
              else vstr (twoMinorDown info))) := by
  have c0 := consistent_nil reg
  have c1 := processSection_consistent _ m.dependencies c0
  have c2 := processSection_consistent _ m.devDependencies c1
  have c3 := processSection_consistent _ m.peerDependencies c2
  have hpin : ∀ old, (fun pe : String × String =>
      match regResolve reg pe.1 with
      | none => pe
      | some i => (pe.1, directPin pe.1 i)) (pkg, old) =
      (pkg, if whitelist.contains pkg then ">=" ++ vstr info.latest
            else "<" ++ toString (info.previous.major + 1)) := by
    intro old
    simp only [hres, directPin]
  refine ⟨?_, ?_, ?_, ?_⟩
  · intro old hold
    show _ ∈ (processSection reg [] m.dependencies).1
    rw [processSection_fst c0]
    exact hpin old ▸ List.mem_map_of_mem _ hold
  · intro old hold
    show _ ∈ (processSection reg (processSection reg [] m.dependencies).2
      m.devDependencies).1
    rw [processSection_fst c1]
    exact hpin old ▸ List.mem_map_of_mem _ hold
  · intro old hold
    show _ ∈ (processSection reg (processSection reg
      (processSection reg [] m.dependencies).2 m.devDependencies).2
      m.peerDependencies).1
    rw [processSection_fst c2]
    exact hpin old ▸ List.mem_map_of_mem _ hold
  · intro hmem
    have := processOverrides_lookup _ (m.overrides.getD []) installed
      pkg info c3 hmem hres
    simpa [updateManifest, overridePin] using this

/-- C4 witness: `left-pad` (previous `1.3.0`, major 1) renders as `<2` in
dependencies and as the exact downgraded version `1.1.0` in overrides;
whitelisted `svelte` resolved at `4.2.0` renders as `>=4.2.0`. -/
theorem c4_witness :
    ("left-pad", "<2") ∈
      (updateManifest c4reg c4m ["left-pad"]).1.dependencies ∧
    ("svelte", ">=4.2.0") ∈
      (updateManifest c4reg c4m ["left-pad"]).1.dependencies ∧
    alookup ((updateManifest c4reg c4m ["left-pad"]).1.overrides.getD [])
      "left-pad" = some "1.1.0" := by
  have h1 := c4_pin_rendering c4reg c4m ["left-pad"] "left-pad" c1info
    (by decide)
  have h2 := c4_pin_rendering c4reg c4m ["left-pad"] "svelte" c4svInfo
    (by decide)
  refine ⟨?_, ?_, ?_⟩
  · have := h1.1 "^1.3.0" (by decide)
    exact (by decide :
      (if whitelist.contains "left-pad" then ">=" ++ vstr c1info.latest
       else "<" ++ toString (c1info.previous.major + 1)) = "<2") ▸ this
  · have := h2.1 "^4.0.0" (by decide)
    exact (by decide :
      (if whitelist.contains "svelte" then ">=" ++ vstr c4svInfo.latest
       else "<" ++ toString (c4svInfo.previous.major + 1)) = ">=4.2.0") ▸ this
  · have := h1.2.2.2 (by decide)
    exact (by decide :
      (if whitelist.contains "left-pad" then ">=" ++ vstr c1info.latest
       else vstr (twoMinorDown c1info)) = "1.1.0") ▸ this

/-- C5: once a fetch for a name succeeds, a second fetch for the same name
returns the identical catalog from the cache without calling the registry,
and no fetch — for this or any other name — ever removes or replaces the
cached entry. -/
theorem c5_cache_memoization (reg : String → Option (List RawVersion))
    (cache : Cache) (name : String) (info : VersionInfo)
    (h : (fetchVersionInfo reg cache name).res = some info) :
    fetchVersionInfo reg (fetchVersionInfo reg cache name).cache name =
      ⟨some info, (fetchVersionInfo reg cache name).cache, false⟩ ∧
    (∀ m i, alookup cache m = some i →
      alookup (fetchVersionInfo reg cache name).cache m = some i) ∧
    (∀ n₂, alookup
      (fetchVersionInfo reg (fetchVersionInfo reg cache name).cache n₂).cache
      name = some info) := by
  have hh := fetch_caches_hit h
  exact ⟨fetch_hit hh, fun m i hm => fetch_cache_mono hm,
    fun n₂ => fetch_cache_mono hh⟩

/-- C5 witness: a concrete second lookup is served from the cache with the
registry flag off. -/
theorem c5_witness :
    fetchVersionInfo c4reg (fetchVersionInfo c4reg [] "left-pad").cache
      "left-pad" =
      ⟨some c1info, (fetchVersionInfo c4reg [] "left-pad").cache, false⟩ := by
  exact (c5_cache_memoization c4reg [] "left-pad" c1info (by decide)).1

/-- C6: a registry error or an all-filtered catalog surfaces as a null
result (no exception, cache untouched for errors), and the direct-section
pass keeps such a package's entry unchanged while still processing every
other entry of the section. -/
theorem c6_catalog_unavailable :
    (∀ (reg : String → Option (List RawVersion)) (cache : Cache) name,
      alookup cache name = none → reg name = none →
      fetchVersionInfo reg cache name = ⟨none, cache, true⟩) ∧
    (∀ (reg : String → Option (List RawVersion)) (cache : Cache) name raw,
      alookup cache name = none → reg name = some raw → stableOf raw = [] →
      (fetchVersionInfo reg cache name).res = none) ∧
    (∀ (reg : String → Option (List RawVersion)) (cache : Cache)
      (bucket : List (String × String)) pkg old,
      consistentCache reg cache → (pkg, old) ∈ bucket →
      regResolve reg pkg = none →
      (pkg, old) ∈ (processSection reg cache bucket).1 ∧
      (processSection reg cache bucket).1.map Prod.fst =
        bucket.map Prod.fst) := by
  refine ⟨?_, ?_, ?_⟩
  · intro reg cache name hl hr
    unfold fetchVersionInfo
    rw [hl, hr]
  · intro reg cache name raw hl hr hstable
    have hp : fetchVersionInfoPure raw = none := by
      unfold fetchVersionInfoPure sortedStable
      rw [hstable]
      rfl
    rw [fetch_miss_nopure hl hr hp]
  · intro reg cache bucket pkg old h hmem hres
    constructor
    · rw [processSection_fst h]
      have : (fun pe : String × String =>
          match regResolve reg pe.1 with
          | none => pe
          | some i => (pe.1, directPin pe.1 i)) (pkg, old) = (pkg, old) := by
        simp only [hres]
      exact this ▸ List.mem_map_of_mem _ hmem
    · rw [processSection_fst h, List.map_map]
      refine List.map_congr_left ?_
      intro pe _
      cases hx : regResolve reg pe.1 <;> simp [hx]

/-- C6 witness: a missing package and an all-prerelease package both
resolve to null, and the missing package's manifest entry survives the
pass unchanged. -/
theorem c6_witness :
    fetchVersionInfo c6reg [] "gone" = ⟨none, [], true⟩ ∧
    (fetchVersionInfo c6reg [] "empty").res = none ∧
    ("gone", "^1.0.0") ∈
      (processSection c6reg [] [("gone", "^1.0.0")]).1 := by
  refine ⟨?_, ?_, ?_⟩
  · exact c6_catalog_unavailable.1 c6reg [] "gone" (by decide) (by decide)
  · exact c6_catalog_unavailable.2.1 c6reg [] "empty"
      [RawVersion.invalid, RawVersion.pre ⟨1, 0, 0⟩]
      (by decide) (by decide) (by decide)
  · exact (c6_catalog_unavailable.2.2 c6reg [] [("gone", "^1.0.0")]
      "gone" "^1.0.0" (consistent_nil c6reg) (by decide) (by decide)).1

/-- C10: every installed package that resolves receives an overrides entry
with its override pin — no skip for packages already declared as direct
dependencies or already present in the overrides bucket, whose stale value
is overwritten. -/
theorem c10_overrides_always_written
    (reg : String → Option (List RawVersion)) (m : PackageJson)
    (installed : List String) (pkg : String) (info : VersionInfo)
    (hres : regResolve reg pkg = some info) (hmem : pkg ∈ installed) :
    alookup ((updateManifest reg m installed).1.overrides.getD []) pkg =
      some (overridePin pkg info) := by
  have c0 := consistent_nil reg
  have c1 := processSection_consistent _ m.dependencies c0
  have c2 := processSection_consistent _ m.devDependencies c1
  have c3 := processSection_consistent _ m.peerDependencies c2
  have := processOverrides_lookup _ (m.overrides.getD []) installed
    pkg info c3 hmem hres
  simpa [updateManifest] using this

/-- C10 witness: `left-pad` is a direct dependency and already carries the
override `9.9.9`; after the run its override entry is the freshly resolved
`1.1.0`. -/
theorem c10_witness :
    alookup ((updateManifest c4reg c10m ["left-pad"]).1.overrides.getD [])
      "left-pad" = some "1.1.0" := by
  have h := c10_overrides_always_written c4reg c10m ["left-pad"]
    "left-pad" c1info (by decide) (by decide)
  exact (by decide : overridePin "left-pad" c1info = "1.1.0") ▸ h

/-! ### The walker: basic list and measure lemmas -/

/-- A successful lookup means the key occurs in the table. -/
theorem alookup_some_mem_keys {β : Type} {l : List (String × β)} {k : String}
    {v : β} (h : alookup l k = some v) : k ∈ l.map Prod.fst := by
  induction l with
  | nil => cases h
  | cons pe rest ih =>
    obtain ⟨k', v'⟩ := pe
    by_cases he : k' = k
    · simp [he]
    · simp only [alookup, if_neg he] at h
      simpa [he] using Or.inr (ih h)

/-- A failed lookup means the key does not occur in the table. -/
theorem alookup_none_not_mem {β : Type} {l : List (String × β)} {k : String}
    (h : alookup l k = none) : k ∉ l.map Prod.fst := by
  induction l with
  | nil => simp
  | cons pe rest ih =>
    obtain ⟨k', v'⟩ := pe
    by_cases he : k' = k
    · simp [alookup, he] at h
    · simp only [alookup, if_neg he] at h
      simpa [Ne.symm he] using ih h

/-- Strengthening the filter cannot lengthen its output. -/
theorem filter_imp_length {α : Type} {p q : α → Bool}
    (h : ∀ a, p a = true → q a = true) (l : List α) :
    (l.filter p).length ≤ (l.filter q).length := by
  induction l with
  | nil => exact Nat.le_refl 0
  | cons a t ih =>
    by_cases hp : p a = true
    · rw [List.filter_cons_of_pos hp, List.filter_cons_of_pos (h a hp)]
      simpa using ih
    · rw [List.filter_cons_of_neg (by simpa using hp)]
      by_cases hq : q a = true
      · rw [List.filter_cons_of_pos hq]
        exact Nat.le_succ_of_le ih
      · rw [List.filter_cons_of_neg (by simpa using hq)]
        exact ih

/-- Marking a key visited cannot increase the measure. -/
theorem remaining_cons_le (keys vis : List String) (m : String) :
    remainingKeys keys (m :: vis) ≤ remainingKeys keys vis := by
  refine filter_imp_length ?_ keys
  intro a ha
  simp only [decide_eq_true_eq] at ha ⊢
  exact fun hmem => ha (List.mem_cons_of_mem m hmem)

/-- Marking an unvisited key of the table strictly decreases the
measure. -/
theorem remaining_cons_lt {keys vis : List String} {m : String}
    (hk : m ∈ keys) (hv : m ∉ vis) :
    remainingKeys keys (m :: vis) < remainingKeys keys vis := by
  induction keys with
  | nil => cases hk
  | cons a t ih =>
    by_cases he : a = m
    · subst he
      have h1 : (decide (a ∉ a :: vis)) = false := by simp
      have h2 : (decide (a ∉ vis)) = true := by simpa using hv
      simp only [remainingKeys, List.filter_cons, h1, h2, if_true, if_false,
        Bool.false_eq_true, List.length_cons]
      exact Nat.lt_succ_of_le (remaining_cons_le t vis a)
    · have hm : m ∈ t := by
        cases List.mem_cons.mp hk with
        | inl h => exact absurd h.symm he
        | inr h => exact h
      by_cases hva : a ∈ vis
      · have h1 : (decide (a ∉ m :: vis)) = false := by simp [hva]
        have h2 : (decide (a ∉ vis)) = false := by simpa using hva
        simp only [remainingKeys, List.filter_cons, h1, h2,
          Bool.false_eq_true, if_false]
        exact ih hm
      · have h1 : (decide (a ∉ m :: vis)) = true := by simp [hva, he]
        have h2 : (decide (a ∉ vis)) = true := by simpa using hva
        simp only [remainingKeys, List.filter_cons, h1, h2, if_true,
          List.length_cons]
        exact Nat.succ_lt_succ (ih hm)

/-- Marking a key outside the table leaves the measure unchanged. -/
theorem remaining_cons_eq {keys : List String} {m : String}
    (hk : m ∉ keys) (vis : List String) :
    remainingKeys keys (m :: vis) = remainingKeys keys vis := by
  induction keys with
  | nil => rfl
  | cons a t ih =>
    have hne : a ≠ m := fun he => hk (he ▸ List.mem_cons_self a t)
    have ht : m ∉ t := fun hm => hk (List.mem_cons_of_mem a hm)
    by_cases hva : a ∈ vis
    · have h1 : (decide (a ∉ m :: vis)) = false := by simp [hva]
      have h2 : (decide (a ∉ vis)) = false := by simpa using hva
      simp only [remainingKeys, List.filter_cons, h1, h2,
        Bool.false_eq_true, if_false]
      exact ih ht
    · have h1 : (decide (a ∉ m :: vis)) = true := by simp [hva, hne]
      have h2 : (decide (a ∉ vis)) = true := by simpa using hva
      simp only [remainingKeys, List.filter_cons, h1, h2, if_true,
        List.length_cons]
      have h3 := ih ht
      simp only [remainingKeys] at h3
      omega

/-! ### The walker: state-effect lemmas -/

/-- Recording a package directory never touches the module visited set. -/
theorem enqueuePkg_visitedM (fs : FSModel) (st : WalkSt) (p : String) :
    (enqueuePkg fs st p).visitedM = st.visitedM := by
  unfold enqueuePkg
  split <;> rfl

/-- Recording a package directory never touches the scanned log. -/
theorem enqueuePkg_scanned (fs : FSModel) (st : WalkSt) (p : String) :
    (enqueuePkg fs st p).scanned = st.scanned := by
  unfold enqueuePkg
  split <;> rfl

/-- One step of the scope-container loop. -/
theorem processScoped_cons (fs : FSModel) (ep : String) (st : WalkSt)
    (s : Dirent) (t : List Dirent) :
    processScoped fs ep st (s :: t) =
      processScoped fs ep
        (if (s.isDir || s.isSymlink) = true
         then enqueuePkg fs st (pjoin ep s.name) else st) t := rfl

/-- Scope-container handling never touches the module visited set. -/
theorem processScoped_visitedM (fs : FSModel) (ep : String)
    (sds : List Dirent) : ∀ st : WalkSt,
    (processScoped fs ep st sds).visitedM = st.visitedM := by
  induction sds with
  | nil => intro st; rfl
  | cons s t ih =>
    intro st
    rw [processScoped_cons, ih]
    by_cases hs : (s.isDir || s.isSymlink) = true
    · rw [if_pos hs, enqueuePkg_visitedM]
    · rw [if_neg hs]

/-- Scope-container handling never touches the scanned log. -/
theorem processScoped_scanned (fs : FSModel) (ep : String)
    (sds : List Dirent) : ∀ st : WalkSt,
    (processScoped fs ep st sds).scanned = st.scanned := by
  induction sds with
  | nil => intro st; rfl
  | cons s t ih =>
    intro st
    rw [processScoped_cons, ih]
    by_cases hs : (s.isDir || s.isSymlink) = true
    · rw [if_pos hs, enqueuePkg_scanned]
    · rw [if_neg hs]

/-- Entry handling never touches the module visited set. -/
theorem processDirent_visitedM (fs : FSModel) (m : String) (st : WalkSt)
    (d : Dirent) : (processDirent fs m st d).visitedM = st.visitedM := by
  unfold processDirent
  by_cases hb : d.name = ".bin"
  · rw [if_pos hb]
  · rw [if_neg hb]
    by_cases hd : d.isDir = true
    · rw [if_pos hd]
      by_cases ha : isScopeName d.name = true
      · rw [if_pos ha]
        cases alookup fs.dirs (pjoin m d.name) with
        | none => rfl
        | some sds => exact processScoped_visitedM fs _ sds st
      · rw [if_neg ha]
        exact enqueuePkg_visitedM fs st _
    · rw [if_neg hd]
      by_cases hl : d.isSymlink = true
      · rw [if_pos hl]
        cases alookup fs.realp (pjoin m d.name) with
        | none => rfl
        | some t => exact enqueuePkg_visitedM fs st t
      · rw [if_neg hl]

/-- Entry handling never touches the scanned log. -/
theorem processDirent_scanned (fs : FSModel) (m : String) (st : WalkSt)
    (d : Dirent) : (processDirent fs m st d).scanned = st.scanned := by
  unfold processDirent
  by_cases hb : d.name = ".bin"
  · rw [if_pos hb]
  · rw [if_neg hb]
    by_cases hd : d.isDir = true
    · rw [if_pos hd]
      by_cases ha : isScopeName d.name = true
      · rw [if_pos ha]
        cases alookup fs.dirs (pjoin m d.name) with
        | none => rfl
        | some sds => exact processScoped_scanned fs _ sds st
      · rw [if_neg ha]
        exact enqueuePkg_scanned fs st _
    · rw [if_neg hd]
      by_cases hl : d.isSymlink = true
      · rw [if_pos hl]
        cases alookup fs.realp (pjoin m d.name) with
        | none => rfl
        | some t => exact enqueuePkg_scanned fs st t
      · rw [if_neg hl]

/-- Processing a whole listing never touches the module visited set. -/
theorem foldl_processDirent_visitedM (fs : FSModel) (m : String)
    (ds : List Dirent) : ∀ st : WalkSt,
    (ds.foldl (processDirent fs m) st).visitedM = st.visitedM := by
  induction ds with
  | nil => intro st; rfl
  | cons d t ih =>
    intro st
    rw [List.foldl_cons, ih, processDirent_visitedM]

/-- Processing a whole listing never touches the scanned log. -/
theorem foldl_processDirent_scanned (fs : FSModel) (m : String)
    (ds : List Dirent) : ∀ st : WalkSt,
    (ds.foldl (processDirent fs m) st).scanned = st.scanned := by
  induction ds with
  | nil => intro st; rfl
  | cons d t ih =>
    intro st
    rw [List.foldl_cons, ih, processDirent_scanned]

/-! ### The walker: loop equations, termination, stability -/

/-- An exhausted queue is a fixed point at any fuel. -/
theorem walkLoop_nil (fs : FSModel) (n : Nat) (st : WalkSt)
    (h : st.queue = []) : walkLoop fs n st = st := by
  cases n with
  | zero => rfl
  | succ n => simp only [walkLoop, h]

/-- Popping an already-visited directory just drops it. -/
theorem walkLoop_skip {fs : FSModel} {n : Nat} {st : WalkSt} {m : String}
    {rest : List String} (hq : st.queue = m :: rest)
    (hm : m ∈ st.visitedM) :
    walkLoop fs (n + 1) st = walkLoop fs n { st with queue := rest } := by
  simp only [walkLoop, hq, if_pos hm]

/-- Popping an unreadable directory marks it visited and moves on. -/
theorem walkLoop_err {fs : FSModel} {n : Nat} {st : WalkSt} {m : String}
    {rest : List String} (hq : st.queue = m :: rest)
    (hm : m ∉ st.visitedM) (hl : alookup fs.dirs m = none) :
    walkLoop fs (n + 1) st =
      walkLoop fs n { st with queue := rest, visitedM := m :: st.visitedM } := by
  simp only [walkLoop, hq, if_neg hm, hl]

/-- Popping a readable unvisited directory processes its listing. -/
theorem walkLoop_process {fs : FSModel} {n : Nat} {st : WalkSt} {m : String}
    {rest : List String} {ds : List Dirent} (hq : st.queue = m :: rest)
    (hm : m ∉ st.visitedM) (hl : alookup fs.dirs m = some ds) :
    walkLoop fs (n + 1) st =
      walkLoop fs n (ds.foldl (processDirent fs m)
        { st with
          queue := rest
          visitedM := m :: st.visitedM
          scanned := st.scanned ++ [m] }) := by
  simp only [walkLoop, hq, if_neg hm, hl]

/-- Fuel composes: running `a + b` steps equals running `a` then `b`. -/
theorem walkLoop_add (fs : FSModel) :
    ∀ (a b : Nat) (st : WalkSt),
    walkLoop fs (a + b) st = walkLoop fs b (walkLoop fs a st) := by
  intro a
  induction a with
  | zero =>
    intro b st
    rw [Nat.zero_add]
    rfl
  | succ a ih =>
    intro b st
    cases hq : st.queue with
    | nil =>
      rw [walkLoop_nil _ _ _ hq, walkLoop_nil _ _ _ hq, walkLoop_nil _ _ _ hq]
    | cons m rest =>
      rw [Nat.succ_add]
      by_cases hm : m ∈ st.visitedM
      · rw [walkLoop_skip hq hm, walkLoop_skip hq hm, ih]
      · cases hl : alookup fs.dirs m with
        | none => rw [walkLoop_err hq hm hl, walkLoop_err hq hm hl, ih]
        | some ds =>
          rw [walkLoop_process hq hm hl, walkLoop_process hq hm hl, ih]

/-- Once the queue is drained, extra fuel changes nothing: the walk has
terminated. -/
theorem walkLoop_stable (fs : FSModel) (n k : Nat) (st : WalkSt)
    (h : (walkLoop fs n st).queue = []) :
    walkLoop fs (n + k) st = walkLoop fs n st := by
  rw [walkLoop_add fs n k st, walkLoop_nil _ _ _ h]

/-- The queue drains at some finite fuel: the worklist measure — table
keys not yet visited, then queue length — decreases every iteration. -/
theorem walk_drains (fs : FSModel) (st : WalkSt) :
    ∃ n, (walkLoop fs n st).queue = [] := by
  suffices h : ∀ u q st, remainingKeys (fs.dirs.map Prod.fst) st.visitedM ≤ u →
      st.queue.length ≤ q → ∃ n, (walkLoop fs n st).queue = [] from
    h _ _ st (Nat.le_refl _) (Nat.le_refl _)
  intro u
  induction u with
  | zero =>
    intro q
    induction q with
    | zero =>
      intro st hu hq
      exact ⟨0, List.length_eq_zero.mp (Nat.le_zero.mp hq)⟩
    | succ q ihq =>
      intro st hu hq
      cases hqe : st.queue with
      | nil => exact ⟨0, hqe⟩
      | cons m rest =>
        have hql : rest.length ≤ q := by
          rw [hqe] at hq
          simpa using hq
        by_cases hm : m ∈ st.visitedM
        · obtain ⟨n, hn⟩ := ihq { st with queue := rest } hu hql
          exact ⟨n + 1, by rw [walkLoop_skip hqe hm]; exact hn⟩
        · cases hl : alookup fs.dirs m with
          | none =>
            have hnk := alookup_none_not_mem hl
            have hu2 := Nat.le_trans
              (Nat.le_of_eq (remaining_cons_eq hnk st.visitedM)) hu
            obtain ⟨n, hn⟩ := ihq
              { st with queue := rest, visitedM := m :: st.visitedM } hu2 hql
            exact ⟨n + 1, by rw [walkLoop_err hqe hm hl]; exact hn⟩
          | some ds =>
            have hk := alookup_some_mem_keys hl
            have := remaining_cons_lt hk hm
            omega
  | succ u ihu =>
    intro q
    induction q with
    | zero =>
      intro st hu hq
      exact ⟨0, List.length_eq_zero.mp (Nat.le_zero.mp hq)⟩
    | succ q ihq =>
      intro st hu hq
      cases hqe : st.queue with
      | nil => exact ⟨0, hqe⟩
      | cons m rest =>
        have hql : rest.length ≤ q := by
          rw [hqe] at hq
          simpa using hq
        by_cases hm : m ∈ st.visitedM
        · obtain ⟨n, hn⟩ := ihq { st with queue := rest } hu hql
          exact ⟨n + 1, by rw [walkLoop_skip hqe hm]; exact hn⟩
        · cases hl : alookup fs.dirs m with
          | none =>
            have hnk := alookup_none_not_mem hl
            have hu2 := Nat.le_trans
              (Nat.le_of_eq (remaining_cons_eq hnk st.visitedM)) hu
            obtain ⟨n, hn⟩ := ihq
              { st with queue := rest, visitedM := m :: st.visitedM } hu2 hql
            exact ⟨n + 1, by rw [walkLoop_err hqe hm hl]; exact hn⟩
          | some ds =>
            have hk := alookup_some_mem_keys hl
            have hlt := remaining_cons_lt hk hm
            set st2 := ds.foldl (processDirent fs m)
              { st with
                queue := rest
                visitedM := m :: st.visitedM
                scanned := st.scanned ++ [m] } with hst2
            have hvm : st2.visitedM = m :: st.visitedM := by
              rw [hst2, foldl_processDirent_visitedM]
            obtain ⟨n, hn⟩ := ihu st2.queue.length st2
              (by rw [hvm]; omega) (Nat.le_refl _)
            exact ⟨n + 1, by rw [walkLoop_process hqe hm hl, ← hst2]; exact hn⟩

/-! ### The walker: growth and nodup invariants -/

/-- `stepMono` is reflexive. -/
theorem stepMono_refl (st : WalkSt) : stepMono st st :=
  ⟨fun _ h => h, fun _ h => h, fun _ h => h⟩

/-- `stepMono` is transitive. -/
theorem stepMono_trans {a b c : WalkSt} (h1 : stepMono a b)
    (h2 : stepMono b c) : stepMono a c :=
  ⟨fun x hx => h2.1 x (h1.1 x hx), fun x hx => h2.2.1 x (h1.2.1 x hx),
   fun x hx => h2.2.2 x (h1.2.2 x hx)⟩

/-- Recording a package directory only grows the queue, the package
visited set and the collected names. -/
theorem enqueuePkg_stepMono (fs : FSModel) (st : WalkSt) (p : String) :
    stepMono st (enqueuePkg fs st p) := by
  unfold enqueuePkg
  split
  · exact stepMono_refl st
  · refine ⟨fun x hx => List.mem_cons_of_mem _ hx,
      fun x hx => List.mem_cons_of_mem _ hx, ?_⟩
    intro x hx
    cases hn : alookup fs.pkgname p with
    | none => simpa [hn] using hx
    | some y =>
      by_cases hy : y ∈ st.collected
      · simpa [hn, hy] using hx
      · simp only [hn, if_neg hy]
        exact List.mem_append_left _ hx

/-- Invariant preservation through the scope-container loop, for any
property preserved by recording a package directory. -/
theorem processScoped_pres (fs : FSModel) (P : WalkSt → Prop)
    (hP : ∀ st p, P st → P (enqueuePkg fs st p)) (ep : String)
    (sds : List Dirent) : ∀ st : WalkSt, P st →
    P (processScoped fs ep st sds) := by
  induction sds with
  | nil => exact fun st h => h
  | cons s t ih =>
    intro st h
    rw [processScoped_cons]
    by_cases hs : (s.isDir || s.isSymlink) = true
    · rw [if_pos hs]
      exact ih _ (hP st _ h)
    · rw [if_neg hs]
      exact ih st h

/-- Invariant preservation through entry handling. -/
theorem processDirent_pres (fs : FSModel) (P : WalkSt → Prop)
    (hP : ∀ st p, P st → P (enqueuePkg fs st p)) (m : String)
    (st : WalkSt) (d : Dirent) (h : P st) : P (processDirent fs m st d) := by
  unfold processDirent
  by_cases hb : d.name = ".bin"
  · rw [if_pos hb]; exact h
  · rw [if_neg hb]
    by_cases hd : d.isDir = true
    · rw [if_pos hd]
      by_cases ha : isScopeName d.name = true
      · rw [if_pos ha]
        cases alookup fs.dirs (pjoin m d.name) with
        | none => exact h
        | some sds => exact processScoped_pres fs P hP _ sds st h
      · rw [if_neg ha]
        exact hP st _ h
    · rw [if_neg hd]
      by_cases hl : d.isSymlink = true
      · rw [if_pos hl]
        cases alookup fs.realp (pjoin m d.name) with
        | none => exact h
        | some t => exact hP st t h
      · rw [if_neg hl]
        exact h

/-- Invariant preservation through a whole listing. -/
theorem foldl_processDirent_pres (fs : FSModel) (P : WalkSt → Prop)
    (hP : ∀ st p, P st → P (enqueuePkg fs st p)) (m : String)
    (ds : List Dirent) : ∀ st : WalkSt, P st →
    P (ds.foldl (processDirent fs m) st) := by
  induction ds with
  | nil => exact fun st h => h
  | cons d t ih =>
    intro st h
    rw [List.foldl_cons]
    exact ih _ (processDirent_pres fs P hP m st d h)

/-- Recording a package directory keeps the collected list duplicate
free. -/
theorem enqueuePkg_collected_nodup (fs : FSModel) (st : WalkSt) (p : String)
    (h : st.collected.Nodup) : (enqueuePkg fs st p).collected.Nodup := by
  unfold enqueuePkg
  split
  · exact h
  · cases hn : alookup fs.pkgname p with
    | none => simpa [hn] using h
    | some x =>
      by_cases hx : x ∈ st.collected
      · simpa [hn, hx] using h
      · simp only [hn, if_neg hx]
        refine List.Nodup.append h (List.nodup_singleton x) ?_
        intro a ha hax
        rw [List.mem_singleton.mp hax] at ha
        exact hx ha

/-- The collected list stays duplicate free throughout the walk. -/
theorem walkLoop_collected_nodup (fs : FSModel) :
    ∀ (n : Nat) (st : WalkSt), st.collected.Nodup →
    (walkLoop fs n st).collected.Nodup := by
  intro n
  induction n with
  | zero => exact fun st h => h
  | succ n ih =>
    intro st h
    cases hq : st.queue with
    | nil => rw [walkLoop_nil _ _ _ hq]; exact h
    | cons m rest =>
      by_cases hm : m ∈ st.visitedM
      · rw [walkLoop_skip hq hm]; exact ih _ h
      · cases hl : alookup fs.dirs m with
        | none => rw [walkLoop_err hq hm hl]; exact ih _ h
        | some ds =>
          rw [walkLoop_process hq hm hl]
          refine ih _ ?_
          exact foldl_processDirent_pres fs (fun s => s.collected.Nodup)
            (fun s p hp => enqueuePkg_collected_nodup fs s p hp) m ds _ h

/-- The scanned log stays duplicate free and inside the module visited
set throughout the walk. -/
theorem walkLoop_scanned_inv (fs : FSModel) :
    ∀ (n : Nat) (st : WalkSt), st.scanned.Nodup →
    (∀ x ∈ st.scanned, x ∈ st.visitedM) →
    (walkLoop fs n st).scanned.Nodup ∧
    ∀ x ∈ (walkLoop fs n st).scanned, x ∈ (walkLoop fs n st).visitedM := by
  intro n
  induction n with
  | zero => exact fun st h1 h2 => ⟨h1, h2⟩
  | succ n ih =>
    intro st h1 h2
    cases hq : st.queue with
    | nil => rw [walkLoop_nil _ _ _ hq]; exact ⟨h1, h2⟩
    | cons m rest =>
      by_cases hm : m ∈ st.visitedM
      · rw [walkLoop_skip hq hm]
        exact ih _ h1 h2
      · cases hl : alookup fs.dirs m with
        | none =>
          rw [walkLoop_err hq hm hl]
          exact ih _ h1 (fun x hx => List.mem_cons_of_mem m (h2 x hx))
        | some ds =>
          rw [walkLoop_process hq hm hl]
          set base : WalkSt :=
            { st with
              queue := rest
              visitedM := m :: st.visitedM
              scanned := st.scanned ++ [m] } with hbase
          have hsc : (ds.foldl (processDirent fs m) base).scanned =
              st.scanned ++ [m] := by
            rw [foldl_processDirent_scanned]
          have hvm : (ds.foldl (processDirent fs m) base).visitedM =
              m :: st.visitedM := by
            rw [foldl_processDirent_visitedM]
          refine ih _ ?_ ?_
          · rw [hsc]
            refine List.Nodup.append h1 (List.nodup_singleton m) ?_
            intro a ha hax
            rw [List.mem_singleton.mp hax] at ha
            exact hm (h2 m ha)
          · intro x hx
            rw [hsc] at hx
            rw [hvm]
            cases List.mem_append.mp hx with
            | inl h => exact List.mem_cons_of_mem m (h2 x h)
            | inr h => rw [List.mem_singleton.mp h]; exact List.mem_cons_self _ _

/-! ### Claim C7: termination and at-most-once scanning -/

/-- C7 counterexample: the visited sets are not keyed by canonical path,
and the same physical directory can be scanned twice. In `c7bad` the scope
container holds a symbolic link `l` whose real target path is the ancestor
directory `r`; the walker enqueues it unresolved, so the drained run scans
both `r/node_modules` and its alias `r/node_modules/@s/l/node_modules` —
two path keys that the `realpath` collaborator identifies as the same
physical directory — and the package visited set records the alias
`r/node_modules/@s/l` rather than its canonical target `r`. The result
set still deduplicates names. -/
theorem c7_counterexample :
    (walkLoop c7bad 8 (initSt (pjoin "r" "node_modules"))).queue = [] ∧
    alookup c7bad.realp "r/node_modules/@s/l" = some "r" ∧
    alookup c7bad.realp "r/node_modules/@s/l/node_modules" =
      some "r/node_modules" ∧
    "r/node_modules" ∈
      (walkLoop c7bad 8 (initSt (pjoin "r" "node_modules"))).scanned ∧
    "r/node_modules/@s/l/node_modules" ∈
      (walkLoop c7bad 8 (initSt (pjoin "r" "node_modules"))).scanned ∧
    "r/node_modules/@s/l" ∈
      (walkLoop c7bad 8 (initSt (pjoin "r" "node_modules"))).visitedP ∧
    "r" ∉ (walkLoop c7bad 8 (initSt (pjoin "r" "node_modules"))).visitedP ∧
    (walkLoop c7bad 8 (initSt (pjoin "r" "node_modules"))).collected =
      ["a", "root"] := by
  decide

/-- C7 (amended): for every filesystem-collaborator table the walk drains
its queue at some finite fuel and is unchanged by extra fuel (termination
with a finite result), each directory path key is scanned at most once,
and the collected name set has no duplicate entries. The visited sets are
keyed by the raw path strings the walker uses — canonical for top-level
symlink targets only — so this at-most-once guarantee is per path key, not
per physical directory: an unresolved scoped-symlink alias is a distinct
key, and only the finiteness of the collaborator's directory table bounds
the alias family such a cycle induces. -/
theorem c7_walker_termination :
    (∀ (fs : FSModel) (st : WalkSt), ∃ n, (walkLoop fs n st).queue = []) ∧
    (∀ (fs : FSModel) (n k : Nat) (st : WalkSt),
      (walkLoop fs n st).queue = [] →
      walkLoop fs (n + k) st = walkLoop fs n st) ∧
    (∀ (fs : FSModel) (rootNM : String) (n : Nat),
      (walkLoop fs n (initSt rootNM)).scanned.Nodup ∧
      (walkLoop fs n (initSt rootNM)).collected.Nodup) := by
  refine ⟨walk_drains, walkLoop_stable, ?_⟩
  intro fs rootNM n
  refine ⟨(walkLoop_scanned_inv fs n (initSt rootNM) ?_ ?_).1,
    walkLoop_collected_nodup fs n (initSt rootNM) ?_⟩
  · exact List.nodup_nil
  · intro x hx; cases hx
  · exact List.nodup_nil

/-- C7 witness: on the concrete cyclic tree `c7fs` — a symbolic link whose
real target is an ancestor package directory — the walk drains, is stable
past fuel 5, and its scanned and collected lists are duplicate free. -/
theorem c7_witness :
    (∃ n, (walkLoop c7fs n (initSt (pjoin "r" "node_modules"))).queue = []) ∧
    walkLoop c7fs (5 + 2) (initSt (pjoin "r" "node_modules")) =
      walkLoop c7fs 5 (initSt (pjoin "r" "node_modules")) ∧
    (walkLoop c7fs 5 (initSt (pjoin "r" "node_modules"))).scanned.Nodup ∧
    (walkLoop c7fs 5 (initSt (pjoin "r" "node_modules"))).collected.Nodup := by
  refine ⟨c7_walker_termination.1 c7fs _, ?_, ?_⟩
  · exact c7_walker_termination.2.1 c7fs 5 2 _ (by decide)
  · exact c7_walker_termination.2.2 c7fs (pjoin "r" "node_modules") 5

/-! ### The walker: soundness of the collected names -/

/-- A recorded package directory is in the visited set afterwards. -/
theorem enqueuePkg_target (fs : FSModel) (st : WalkSt) (p : String) :
    p ∈ (enqueuePkg fs st p).visitedP := by
  unfold enqueuePkg
  by_cases hp : p ∈ st.visitedP
  · rw [if_pos hp]; exact hp
  · rw [if_neg hp]; exact List.mem_cons_self _ _

/-- Recording a reachable package directory preserves soundness. -/
theorem enqueuePkg_sound {fs : FSModel} {rootNM : String} {st : WalkSt}
    {p : String} (hp : Reach fs rootNM false p)
    (h : SoundSt fs rootNM st) : SoundSt fs rootNM (enqueuePkg fs st p) := by
  unfold enqueuePkg
  by_cases hmem : p ∈ st.visitedP
  · rw [if_pos hmem]; exact h
  · rw [if_neg hmem]
    obtain ⟨hq, hvp, hc⟩ := h
    refine ⟨?_, ?_, ?_⟩
    · intro x hx
      cases List.mem_cons.mp hx with
      | inl he => rw [he]; exact Reach.ofPkg p hp
      | inr hx2 => exact hq x hx2
    · intro x hx
      cases List.mem_cons.mp hx with
      | inl he => rw [he]; exact hp
      | inr hx2 => exact hvp x hx2
    · intro x hx
      cases hn : alookup fs.pkgname p with
      | none => exact hc x (by simpa [hn] using hx)
      | some y =>
        by_cases hy : y ∈ st.collected
        · exact hc x (by simpa [hn, hy] using hx)
        · have hx2 : x ∈ st.collected ++ [y] := by simpa [hn, hy] using hx
          cases List.mem_append.mp hx2 with
          | inl hx3 => exact hc x hx3
          | inr hx3 =>
            exact ⟨p, hp, by rw [List.mem_singleton.mp hx3]; exact hn⟩

/-- The scope-container loop only records reachable scoped package
directories, so it preserves soundness. -/
theorem processScoped_sound {fs : FSModel} {rootNM m : String}
    {ds : List Dirent} {d : Dirent} {sds0 : List Dirent}
    (hm : Reach fs rootNM true m) (hds : alookup fs.dirs m = some ds)
    (hd : d ∈ ds) (hbin : d.name ≠ ".bin") (hdir : d.isDir = true)
    (hsc : isScopeName d.name = true)
    (hsds : alookup fs.dirs (pjoin m d.name) = some sds0) :
    ∀ l : List Dirent, (∀ s ∈ l, s ∈ sds0) → ∀ st : WalkSt,
    SoundSt fs rootNM st →
    SoundSt fs rootNM (processScoped fs (pjoin m d.name) st l) := by
  intro l
  induction l with
  | nil => exact fun _ st h => h
  | cons s t ih =>
    intro hsub st h
    rw [processScoped_cons]
    by_cases hs : (s.isDir || s.isSymlink) = true
    · rw [if_pos hs]
      refine ih (fun x hx => hsub x (List.mem_cons_of_mem s hx)) _ ?_
      refine enqueuePkg_sound ?_ h
      exact Reach.scope m ds d sds0 s hm hds hd hbin hdir hsc hsds
        (hsub s (List.mem_cons_self s t)) (by simpa [Bool.or_eq_true] using hs)
    · rw [if_neg hs]
      exact ih (fun x hx => hsub x (List.mem_cons_of_mem s hx)) st h

/-- Handling one listed entry of a reachable module directory preserves
soundness. -/
theorem processDirent_sound {fs : FSModel} {rootNM m : String}
    {ds : List Dirent} (hm : Reach fs rootNM true m)
    (hds : alookup fs.dirs m = some ds) {d : Dirent} (hd : d ∈ ds)
    {st : WalkSt} (h : SoundSt fs rootNM st) :
    SoundSt fs rootNM (processDirent fs m st d) := by
  unfold processDirent
  by_cases hb : d.name = ".bin"
  · rw [if_pos hb]; exact h
  · rw [if_neg hb]
    by_cases hdir : d.isDir = true
    · rw [if_pos hdir]
      by_cases ha : isScopeName d.name = true
      · rw [if_pos ha]
        cases hsds : alookup fs.dirs (pjoin m d.name) with
        | none => exact h
        | some sds =>
          exact processScoped_sound hm hds hd hb hdir ha hsds sds
            (fun s hs => hs) st h
      · rw [if_neg ha]
        exact enqueuePkg_sound
          (Reach.plain m ds d hm hds hd hb hdir
            (Bool.not_eq_true _ ▸ ha : isScopeName d.name = false)) h
    · rw [if_neg hdir]
      by_cases hl : d.isSymlink = true
      · rw [if_pos hl]
        cases ht : alookup fs.realp (pjoin m d.name) with
        | none => exact h
        | some t =>
          exact enqueuePkg_sound
            (Reach.link m ds d t hm hds hd hb
              (Bool.not_eq_true _ ▸ hdir : d.isDir = false) hl ht) h
      · rw [if_neg hl]
        exact h

/-- Processing the whole listing of a reachable module directory preserves
soundness. -/
theorem foldl_processDirent_sound {fs : FSModel} {rootNM m : String}
    {ds0 : List Dirent} (hm : Reach fs rootNM true m)
    (hds : alookup fs.dirs m = some ds0) :
    ∀ l : List Dirent, (∀ d ∈ l, d ∈ ds0) → ∀ st : WalkSt,
    SoundSt fs rootNM st →
    SoundSt fs rootNM (l.foldl (processDirent fs m) st) := by
  intro l
  induction l with
  | nil => exact fun _ st h => h
  | cons d t ih =>
    intro hsub st h
    rw [List.foldl_cons]
    exact ih (fun x hx => hsub x (List.mem_cons_of_mem d hx)) _
      (processDirent_sound hm hds (hsub d (List.mem_cons_self d t)) h)

/-- The walk preserves soundness. -/
theorem walkLoop_sound (fs : FSModel) (rootNM : String) :
    ∀ (n : Nat) (st : WalkSt), SoundSt fs rootNM st →
    SoundSt fs rootNM (walkLoop fs n st) := by
  intro n
  induction n with
  | zero => exact fun st h => h
  | succ n ih =>
    intro st h
    cases hq : st.queue with
    | nil => rw [walkLoop_nil _ _ _ hq]; exact h
    | cons m rest =>
      have hqs : ∀ x ∈ rest, Reach fs rootNM true x := by
        intro x hx
        exact h.1 x (by rw [hq]; exact List.mem_cons_of_mem m hx)
      have hmre : Reach fs rootNM true m :=
        h.1 m (by rw [hq]; exact List.mem_cons_self m rest)
      by_cases hm : m ∈ st.visitedM
      · rw [walkLoop_skip hq hm]
        exact ih _ ⟨hqs, h.2.1, h.2.2⟩
      · cases hl : alookup fs.dirs m with
        | none =>
          rw [walkLoop_err hq hm hl]
          exact ih _ ⟨hqs, h.2.1, h.2.2⟩
        | some ds =>
          rw [walkLoop_process hq hm hl]
          refine ih _ ?_
          exact foldl_processDirent_sound hmre hl ds (fun d hd => hd) _
            ⟨hqs, h.2.1, h.2.2⟩

/-- Every collected name comes from a reachable package directory. -/
theorem collect_sound (fs : FSModel) (rootNM : String) (n : Nat) :
    ∀ x ∈ (walkLoop fs n (initSt rootNM)).collected,
    ∃ p, Reach fs rootNM false p ∧ alookup fs.pkgname p = some x := by
  have h0 : SoundSt fs rootNM (initSt rootNM) := by
    refine ⟨?_, ?_, ?_⟩
    · intro x hx
      rw [List.mem_singleton.mp hx]
      exact Reach.root
    · intro x hx; cases hx
    · intro x hx; cases hx
  exact (walkLoop_sound fs rootNM n (initSt rootNM) h0).2.2

/-! ### The walker: completeness of the collected names -/

/-- Growth of a recorded-directories predicate through the listing fold:
memberships of the visited package set persist. -/
theorem foldl_stepMono (fs : FSModel) (m : String) (ds : List Dirent)
    (st : WalkSt) : stepMono st (ds.foldl (processDirent fs m) st) := by
  have h := foldl_processDirent_pres fs (fun s => stepMono st s)
    (fun s p hs => stepMono_trans hs (enqueuePkg_stepMono fs s p)) m ds st
    (stepMono_refl st)
  exact h

/-- All successors demanded by `DirentsDone` persist when the visited
package set grows. -/
theorem direntsDone_mono {fs : FSModel} {m : String} {ds : List Dirent}
    {vp vp' : List String} (hsub : ∀ x ∈ vp, x ∈ vp')
    (h : DirentsDone fs m ds vp) : DirentsDone fs m ds vp' := by
  intro d hd hbin
  obtain ⟨h1, h2, h3⟩ := h d hd hbin
  refine ⟨fun a b => hsub _ (h1 a b), fun a b sds hsds s hs hc =>
    hsub _ (h2 a b sds hsds s hs hc), fun a b t ht => hsub _ (h3 a b t ht)⟩

/-- After handling one entry, that entry's own successors are recorded. -/
theorem processDirent_establishes (fs : FSModel) (m : String) (st : WalkSt)
    (d : Dirent) (hbin : d.name ≠ ".bin") :
    (d.isDir = true → isScopeName d.name = false →
      pjoin m d.name ∈ (processDirent fs m st d).visitedP) ∧
    (d.isDir = true → isScopeName d.name = true →
      ∀ sds, alookup fs.dirs (pjoin m d.name) = some sds →
        ∀ s ∈ sds, s.isDir = true ∨ s.isSymlink = true →
          pjoin (pjoin m d.name) s.name ∈ (processDirent fs m st d).visitedP) ∧
    (d.isDir = false → d.isSymlink = true →
      ∀ t, alookup fs.realp (pjoin m d.name) = some t →
        t ∈ (processDirent fs m st d).visitedP) := by
  have hscoped : ∀ (ep : String) (l : List Dirent) (st2 : WalkSt),
      ∀ s ∈ l, (s.isDir = true ∨ s.isSymlink = true) →
      pjoin ep s.name ∈ (processScoped fs ep st2 l).visitedP := by
    intro ep l
    induction l with
    | nil => intro st2 s hs; cases hs
    | cons s0 t ih =>
      intro st2 s hs hcond
      rw [processScoped_cons]
      cases List.mem_cons.mp hs with
      | inl he =>
        subst he
        have hc : (s.isDir || s.isSymlink) = true := by
          simpa [Bool.or_eq_true] using hcond
        rw [if_pos hc]
        have htgt := enqueuePkg_target fs st2 (pjoin ep s.name)
        exact (processScoped_pres fs
          (fun s2 => pjoin ep s.name ∈ s2.visitedP)
          (fun s2 p hp => (enqueuePkg_stepMono fs s2 p).2.1 _ hp) ep t _
          htgt)
      | inr hs2 => exact ih _ s hs2 hcond
  unfold processDirent
  rw [if_neg hbin]
  by_cases hdir : d.isDir = true
  · rw [if_pos hdir]
    by_cases ha : isScopeName d.name = true
    · rw [if_pos ha]
      refine ⟨fun _ hf => absurd ha (by rw [hf]; simp), fun _ _ => ?_,
        fun hf => absurd hdir (by rw [hf]; simp)⟩
      intro sds hsds s hs hcond
      rw [hsds]
      exact hscoped (pjoin m d.name) sds st s hs hcond
    · rw [if_neg ha]
      refine ⟨fun _ _ => enqueuePkg_target fs st _, fun _ ht => absurd ht ha,
        fun hf => absurd hdir (by rw [hf]; simp)⟩
  · rw [if_neg hdir]
    refine ⟨fun ht => absurd ht hdir, fun ht => absurd ht hdir, ?_⟩
    intro _ hlink t ht
    rw [if_pos hlink, ht]
    exact enqueuePkg_target fs st t

/-- After processing a whole listing, every successor of every entry is
recorded. -/
theorem foldl_establishes (fs : FSModel) (m : String) (ds : List Dirent) :
    ∀ st : WalkSt,
    DirentsDone fs m ds ((ds.foldl (processDirent fs m) st).visitedP) := by
  induction ds with
  | nil => intro st d hd; cases hd
  | cons d t ih =>
    intro st d' hd' hbin
    rw [List.foldl_cons]
    cases List.mem_cons.mp hd' with
    | inl he =>
      subst he
      have h0 := processDirent_establishes fs m st d' hbin
      have hmono := foldl_stepMono fs m t (processDirent fs m st d')
      refine ⟨fun a b => hmono.2.1 _ (h0.1 a b),
        fun a b sds hsds s hs hc =>
          hmono.2.1 _ (h0.2.1 a b sds hsds s hs hc),
        fun a b tt htt => hmono.2.1 _ (h0.2.2 a b tt htt)⟩
    | inr hd2 =>
      exact ih (processDirent fs m st d) d' hd2 hbin

/-- The walk preserves the completeness invariant. -/
theorem walkLoop_closed (fs : FSModel) :
    ∀ (n : Nat) (st : WalkSt), ClosedSt fs st →
    ClosedSt fs (walkLoop fs n st) := by
  intro n
  induction n with
  | zero => exact fun st h => h
  | succ n ih =>
    intro st h
    obtain ⟨h1, h2, h3⟩ := h
    cases hq : st.queue with
    | nil => rw [walkLoop_nil _ _ _ hq]; exact ⟨h1, h2, h3⟩
    | cons m rest =>
      by_cases hm : m ∈ st.visitedM
      · rw [walkLoop_skip hq hm]
        refine ih _ ⟨?_, h2, h3⟩
        intro p hp
        cases h1 p hp with
        | inl hin => exact Or.inl hin
        | inr hin =>
          rw [hq] at hin
          cases List.mem_cons.mp hin with
          | inl he => exact Or.inl (he ▸ hm)
          | inr he => exact Or.inr he
      · cases hl : alookup fs.dirs m with
        | none =>
          rw [walkLoop_err hq hm hl]
          refine ih _ ⟨?_, ?_, h3⟩
          · intro p hp
            cases h1 p hp with
            | inl hin => exact Or.inl (List.mem_cons_of_mem m hin)
            | inr hin =>
              rw [hq] at hin
              cases List.mem_cons.mp hin with
              | inl he => exact Or.inl (he ▸ List.mem_cons_self m _)
              | inr he => exact Or.inr he
          · intro m2 hm2 ds2 hds2
            cases List.mem_cons.mp hm2 with
            | inl he => rw [he] at hds2; rw [hds2] at hl; cases hl
            | inr hm3 => exact h2 m2 hm3 ds2 hds2
        | some ds =>
          rw [walkLoop_process hq hm hl]
          set base : WalkSt :=
            { st with
              queue := rest
              visitedM := m :: st.visitedM
              scanned := st.scanned ++ [m] } with hbase
          have hmono := foldl_stepMono fs m ds base
          have hvm : (ds.foldl (processDirent fs m) base).visitedM =
              m :: st.visitedM := by
            rw [foldl_processDirent_visitedM]
          refine ih _ ⟨?_, ?_, ?_⟩
          · refine foldl_processDirent_pres fs
              (fun s => ∀ p ∈ s.visitedP, pjoin p "node_modules" ∈ s.visitedM ∨
                pjoin p "node_modules" ∈ s.queue) ?_ m ds base ?_
            · intro s p hs
              unfold enqueuePkg
              by_cases hpm : p ∈ s.visitedP
              · rw [if_pos hpm]; exact hs
              · rw [if_neg hpm]
                intro p2 hp2
                cases List.mem_cons.mp hp2 with
                | inl he =>
                  subst he
                  exact Or.inr (List.mem_cons_self _ _)
                | inr hp3 =>
                  cases hs p2 hp3 with
                  | inl hin => exact Or.inl hin
                  | inr hin => exact Or.inr (List.mem_cons_of_mem _ hin)
            · intro p hp
              cases h1 p hp with
              | inl hin => exact Or.inl (List.mem_cons_of_mem m hin)
              | inr hin =>
                rw [hq] at hin
                cases List.mem_cons.mp hin with
                | inl he => exact Or.inl (he ▸ List.mem_cons_self m _)
                | inr he => exact Or.inr he
          · intro m2 hm2 ds2 hds2
            rw [hvm] at hm2
            cases List.mem_cons.mp hm2 with
            | inl he =>
              subst he
              rw [hl] at hds2
              cases hds2
              exact foldl_establishes fs m2 ds base
            | inr hm3 =>
              exact direntsDone_mono (fun x hx => hmono.2.1 x hx)
                (h2 m2 hm3 ds2 hds2)
          · refine foldl_processDirent_pres fs
              (fun s => ∀ p ∈ s.visitedP, ∀ x,
                alookup fs.pkgname p = some x → x ∈ s.collected) ?_ m ds base
              h3
            intro s p hs
            unfold enqueuePkg
            by_cases hpm : p ∈ s.visitedP
            · rw [if_pos hpm]; exact hs
            · rw [if_neg hpm]
              intro p2 hp2 x hx
              cases List.mem_cons.mp hp2 with
              | inl he =>
                subst he
                rw [hx]
                by_cases hxc : x ∈ s.collected
                · simp [hxc]
                · simp [hxc]
              | inr hp3 =>
                have hin := hs p2 hp3 x hx
                cases hn : alookup fs.pkgname p with
                | none => simpa [hn] using hin
                | some y =>
                  by_cases hy : y ∈ s.collected
                  · simpa [hn, hy] using hin
                  · simp only [hn, if_neg hy]
                    exact List.mem_append_left _ hin

/-- Module visited-set membership persists through the walk. -/
theorem walkLoop_visitedM_mono (fs : FSModel) :
    ∀ (n : Nat) (st : WalkSt) (x : String), x ∈ st.visitedM →
    x ∈ (walkLoop fs n st).visitedM := by
  intro n
  induction n with
  | zero => exact fun st x h => h
  | succ n ih =>
    intro st x h
    cases hq : st.queue with
    | nil => rw [walkLoop_nil _ _ _ hq]; exact h
    | cons m rest =>
      by_cases hm : m ∈ st.visitedM
      · rw [walkLoop_skip hq hm]; exact ih _ x h
      · cases hl : alookup fs.dirs m with
        | none =>
          rw [walkLoop_err hq hm hl]
          exact ih _ x (List.mem_cons_of_mem m h)
        | some ds =>
          rw [walkLoop_process hq hm hl]
          refine ih _ x ?_
          rw [foldl_processDirent_visitedM]
          exact List.mem_cons_of_mem m h

/-- Every queued directory is in the module visited set once the walk
drains. -/
theorem walkLoop_queue_visited (fs : FSModel) :
    ∀ (n : Nat) (st : WalkSt), (walkLoop fs n st).queue = [] →
    ∀ x ∈ st.queue, x ∈ (walkLoop fs n st).visitedM := by
  intro n
  induction n with
  | zero =>
    intro st hdr x hx
    rw [show walkLoop fs 0 st = st from rfl] at hdr
    rw [hdr] at hx
    cases hx
  | succ n ih =>
    intro st hdr x hx
    cases hq : st.queue with
    | nil => rw [hq] at hx; cases hx
    | cons m rest =>
      rw [hq] at hx
      by_cases hm : m ∈ st.visitedM
      · rw [walkLoop_skip hq hm] at hdr ⊢
        cases List.mem_cons.mp hx with
        | inl he => exact walkLoop_visitedM_mono fs n _ x (he ▸ hm)
        | inr hx2 => exact ih _ hdr x hx2
      · cases hl : alookup fs.dirs m with
        | none =>
          rw [walkLoop_err hq hm hl] at hdr ⊢
          cases List.mem_cons.mp hx with
          | inl he =>
            exact walkLoop_visitedM_mono fs n _ x
              (he ▸ List.mem_cons_self m st.visitedM)
          | inr hx2 => exact ih _ hdr x hx2
        | some ds =>
          rw [walkLoop_process hq hm hl] at hdr ⊢
          cases List.mem_cons.mp hx with
          | inl he =>
            refine walkLoop_visitedM_mono fs n _ x ?_
            rw [foldl_processDirent_visitedM]
            exact he ▸ List.mem_cons_self m st.visitedM
          | inr hx2 =>
            refine ih _ hdr x ?_
            refine (foldl_stepMono fs m ds _).1 x ?_
            exact hx2

/-- Every reachable directory is visited once the walk drains. -/
theorem reach_in_final (fs : FSModel) (rootNM : String) (n : Nat)
    (hdrain : (walkLoop fs n (initSt rootNM)).queue = []) :
    ∀ (b : Bool) (x : String), Reach fs rootNM b x →
    (b = true → x ∈ (walkLoop fs n (initSt rootNM)).visitedM) ∧
    (b = false → x ∈ (walkLoop fs n (initSt rootNM)).visitedP) := by
  have hclosed : ClosedSt fs (walkLoop fs n (initSt rootNM)) := by
    refine walkLoop_closed fs n (initSt rootNM) ⟨?_, ?_, ?_⟩
    · intro p hp; cases hp
    · intro m hm; cases hm
    · intro p hp; cases hp
  intro b x h
  induction h with
  | root =>
    refine ⟨fun _ => ?_, fun hb => Bool.noConfusion hb⟩
    exact walkLoop_queue_visited fs n (initSt rootNM) hdrain rootNM
      (List.mem_singleton.mpr rfl)
  | ofPkg p hp ih =>
    refine ⟨fun _ => ?_, fun hb => Bool.noConfusion hb⟩
    cases hclosed.1 p (ih.2 rfl) with
    | inl hin => exact hin
    | inr hin => rw [hdrain] at hin; cases hin
  | plain m ds d hm hds hd hbin hdir hsc ih =>
    refine ⟨fun hb => Bool.noConfusion hb, fun _ => ?_⟩
    exact ((hclosed.2.1 m (ih.1 rfl) ds hds) d hd hbin).1 hdir hsc
  | scope m ds d sds s hm hds hd hbin hdir hsc hsds hs hcond ih =>
    refine ⟨fun hb => Bool.noConfusion hb, fun _ => ?_⟩
    exact ((hclosed.2.1 m (ih.1 rfl) ds hds) d hd hbin).2.1 hdir hsc
      sds hsds s hs hcond
  | link m ds d t hm hds hd hbin hdir hlink ht ih =>
    refine ⟨fun hb => Bool.noConfusion hb, fun _ => ?_⟩
    exact ((hclosed.2.1 m (ih.1 rfl) ds hds) d hd hbin).2.2 hdir hlink t ht

/-- Characterization of the collected names: once the walk drains, a name
is collected exactly when some reachable package directory declares it. -/
theorem collected_iff (fs : FSModel) (rootNM : String) (n : Nat)
    (hdrain : (walkLoop fs n (initSt rootNM)).queue = []) (x : String) :
    x ∈ (walkLoop fs n (initSt rootNM)).collected ↔
    ∃ p, Reach fs rootNM false p ∧ alookup fs.pkgname p = some x := by
  constructor
  · exact collect_sound fs rootNM n x
  · rintro ⟨p, hp, hname⟩
    have hclosed : ClosedSt fs (walkLoop fs n (initSt rootNM)) := by
      refine walkLoop_closed fs n (initSt rootNM) ⟨?_, ?_, ?_⟩
      · intro q hq; cases hq
      · intro m hm; cases hm
      · intro q hq; cases hq
    have hpv := (reach_in_final fs rootNM n hdrain false p hp).2 rfl
    exact hclosed.2.2 p hpv x hname

/-! ### The walker: invariance under directory-listing order -/

/-- Pointwise-permuted tables agree on lookups up to permutation of the
returned listing. -/
theorem dirsPermEquiv_alookup :
    ∀ {l l' : List (String × List Dirent)}, dirsPermEquiv l l' = true →
    ∀ k : String,
    (alookup l k = none ∧ alookup l' k = none) ∨
    ∃ ds ds', alookup l k = some ds ∧ alookup l' k = some ds' ∧
      ds.Perm ds' := by
  intro l
  induction l with
  | nil =>
    intro l' h k
    cases l' with
    | nil => exact Or.inl ⟨rfl, rfl⟩
    | cons pe t => simp [dirsPermEquiv] at h
  | cons pe t ih =>
    intro l' h k
    cases l' with
    | nil => simp [dirsPermEquiv] at h
    | cons pe' t' =>
      obtain ⟨k0, ds⟩ := pe
      obtain ⟨k0', ds'⟩ := pe'
      simp only [dirsPermEquiv, Bool.and_eq_true, beq_iff_eq,
        decide_eq_true_eq] at h
      obtain ⟨⟨hk, hperm⟩, hrec⟩ := h
      subst hk
      by_cases he : k0 = k
      · exact Or.inr ⟨ds, ds', by simp [alookup, he], by simp [alookup, he],
          hperm⟩
      · have h1 : alookup ((k0, ds) :: t) k = alookup t k := by
          simp [alookup, he]
        have h2 : alookup ((k0, ds') :: t') k = alookup t' k := by
          simp [alookup, he]
        rw [h1, h2]
        exact ih hrec k

/-- Pointwise listing permutation is symmetric. -/
theorem dirsPermEquiv_symm :
    ∀ {l l' : List (String × List Dirent)}, dirsPermEquiv l l' = true →
    dirsPermEquiv l' l = true := by
  intro l
  induction l with
  | nil =>
    intro l' h
    cases l' with
    | nil => rfl
    | cons pe t => simp [dirsPermEquiv] at h
  | cons pe t ih =>
    intro l' h
    cases l' with
    | nil => simp [dirsPermEquiv] at h
    | cons pe' t' =>
      obtain ⟨k0, ds⟩ := pe
      obtain ⟨k0', ds'⟩ := pe'
      simp only [dirsPermEquiv, Bool.and_eq_true, beq_iff_eq,
        decide_eq_true_eq] at h ⊢
      exact ⟨⟨h.1.1.symm, h.1.2.symm⟩, ih h.2⟩

/-- Filesystem equivalence is symmetric. -/
theorem fsPermEquiv_symm {fs fs' : FSModel} (h : FSPermEquiv fs fs') :
    FSPermEquiv fs' fs :=
  ⟨dirsPermEquiv_symm h.1, h.2.1.symm, h.2.2.1.symm, h.2.2.2.symm⟩

/-- Reachability only depends on listing membership, so it is invariant
under listing order. -/
theorem reach_permEquiv {fs fs' : FSModel} {rootNM : String}
    (h : FSPermEquiv fs fs') :
    ∀ (b : Bool) (x : String), Reach fs rootNM b x →
    Reach fs' rootNM b x := by
  intro b x hr
  induction hr with
  | root => exact Reach.root
  | ofPkg p hp ih => exact Reach.ofPkg p ih
  | plain m ds d hm hds hd hbin hdir hsc ih =>
    cases dirsPermEquiv_alookup h.1 m with
    | inl hc => rw [hc.1] at hds; cases hds
    | inr hc =>
      obtain ⟨ds1, ds1', hl1, hl1', hperm⟩ := hc
      rw [hds] at hl1
      cases hl1
      exact Reach.plain m ds1' d ih hl1' (hperm.mem_iff.mp hd) hbin hdir hsc
  | scope m ds d sds s hm hds hd hbin hdir hsc hsds hs hcond ih =>
    cases dirsPermEquiv_alookup h.1 m with
    | inl hc => rw [hc.1] at hds; cases hds
    | inr hc =>
      obtain ⟨ds1, ds1', hl1, hl1', hperm⟩ := hc
      rw [hds] at hl1
      cases hl1
      cases dirsPermEquiv_alookup h.1 (pjoin m d.name) with
      | inl hc2 => rw [hc2.1] at hsds; cases hsds
      | inr hc2 =>
        obtain ⟨sds1, sds1', hl2, hl2', hperm2⟩ := hc2
        rw [hsds] at hl2
        cases hl2
        exact Reach.scope m ds1' d sds1' s ih hl1' (hperm.mem_iff.mp hd)
          hbin hdir hsc hl2' (hperm2.mem_iff.mp hs) hcond
  | link m ds d t hm hds hd hbin hdir hlink ht ih =>
    cases dirsPermEquiv_alookup h.1 m with
    | inl hc => rw [hc.1] at hds; cases hds
    | inr hc =>
      obtain ⟨ds1, ds1', hl1, hl1', hperm⟩ := hc
      rw [hds] at hl1
      cases hl1
      refine Reach.link m ds1' d t ih hl1' (hperm.mem_iff.mp hd)
        hbin hdir hlink ?_
      rw [← h.2.1]
      exact ht

/-! ### Claims C8, C9: determinism, binary-stub exclusion, symlinks -/

/-- C8: two drained runs over listings that differ only in order collect
the same name set; a missing root `node_modules` yields the empty result;
and every collected name stems from a reachable package directory — a
reachability relation whose rules all skip the `.bin` stub entry. -/
theorem c8_walker_determinism (fs fs' : FSModel) (root : String)
    (n n' : Nat) (hequiv : FSPermEquiv fs fs')
    (hn : (walkLoop fs n (initSt (pjoin root "node_modules"))).queue = [])
    (hn' : (walkLoop fs' n' (initSt (pjoin root "node_modules"))).queue = []) :
    (∀ x, x ∈ collectInstalledPackages fs root n ↔
      x ∈ collectInstalledPackages fs' root n') ∧
    (pjoin root "node_modules" ∉ fs.extant →
      collectInstalledPackages fs root n = []) ∧
    (∀ x ∈ collectInstalledPackages fs root n, ∃ p,
      ReachP fs (pjoin root "node_modules") p ∧
      alookup fs.pkgname p = some x) := by
  refine ⟨?_, ?_, ?_⟩
  · intro x
    by_cases hex : pjoin root "node_modules" ∈ fs.extant
    · have hex' : pjoin root "node_modules" ∈ fs'.extant := by
        rw [← hequiv.2.2.2]; exact hex
      unfold collectInstalledPackages
      rw [if_pos hex, if_pos hex',
        collected_iff fs _ n hn x, collected_iff fs' _ n' hn' x]
      constructor
      · rintro ⟨p, hp, hname⟩
        exact ⟨p, reach_permEquiv hequiv false p hp,
          by rw [← hequiv.2.2.1]; exact hname⟩
      · rintro ⟨p, hp, hname⟩
        exact ⟨p, reach_permEquiv (fsPermEquiv_symm hequiv) false p hp,
          by rw [hequiv.2.2.1]; exact hname⟩
    · have hex' : pjoin root "node_modules" ∉ fs'.extant := by
        rw [← hequiv.2.2.2]; exact hex
      unfold collectInstalledPackages
      rw [if_neg hex, if_neg hex']
  · intro hex
    unfold collectInstalledPackages
    rw [if_neg hex]
  · intro x hx
    by_cases hex : pjoin root "node_modules" ∈ fs.extant
    · unfold collectInstalledPackages at hx
      rw [if_pos hex] at hx
      exact collect_sound fs _ n x hx
    · unfold collectInstalledPackages at hx
      rw [if_neg hex] at hx
      cases hx

/-- C8 witness: the permuted listing of `c8fs` yields the same membership
for `x`; a filesystem with no installation tree collects nothing; and the
collected `x` is justified by a reachable package directory. -/
theorem c8_witness :
    ("x" ∈ collectInstalledPackages c8fs "r" 5 ↔
      "x" ∈ collectInstalledPackages c8fsPerm "r" 5) ∧
    collectInstalledPackages c8fsNone "r" 5 = [] ∧
    (∃ p, ReachP c8fs (pjoin "r" "node_modules") p ∧
      alookup c8fs.pkgname p = some "x") := by
  have h := c8_walker_determinism c8fs c8fsPerm "r" 5 5
    (by refine ⟨by decide, rfl, rfl, rfl⟩) (by decide) (by decide)
  have h2 := c8_walker_determinism c8fsNone c8fsNone "r" 5 5
    (by refine ⟨by decide, rfl, rfl, rfl⟩) (by decide) (by decide)
  exact ⟨h.1 "x", h2.2.1 (by decide), h.2.2 "x" (by decide)⟩

/-- C9 counterexample: in `c9fs` the scope container `@s` holds a
symbolic-link entry `p` whose `realpath` target is `X`, yet the walker
records the candidate at the joined path `r/node_modules/@s/p` — collecting
the name `a` found there — and never visits the resolved target `X`: the
scoped symbolic link is not resolved before being treated as a candidate
package directory. -/
theorem c9_counterexample :
    collectInstalledPackages c9fs "r" 4 = ["a"] ∧
    "r/node_modules/@s/p" ∈
      (walkLoop c9fs 4 (initSt (pjoin "r" "node_modules"))).visitedP ∧
    "X" ∉ (walkLoop c9fs 4 (initSt (pjoin "r" "node_modules"))).visitedP ∧
    alookup c9fs.realp "r/node_modules/@s/p" = some "X" := by
  decide

/-- C9 (amended): a top-level symbolic-link entry of a modules directory
is resolved with `realpath` before being treated as a candidate package
directory, and is silently skipped when resolution fails; a symbolic link
found one level beneath a scope container is instead treated as a
candidate at its joined, unresolved path. -/
theorem c9_symlink_resolution (fs : FSModel) (m : String) (st : WalkSt)
    (d : Dirent) (hbin : d.name ≠ ".bin") (hdir : d.isDir = false)
    (hlink : d.isSymlink = true) :
    (∀ t, alookup fs.realp (pjoin m d.name) = some t →
      processDirent fs m st d = enqueuePkg fs st t) ∧
    (alookup fs.realp (pjoin m d.name) = none →
      processDirent fs m st d = st) ∧
    (∀ (ep : String) (s : Dirent), s.isSymlink = true → ∀ st2 : WalkSt,
      processScoped fs ep st2 [s] =
        enqueuePkg fs st2 (pjoin ep s.name)) := by
  have hnd : ¬ d.isDir = true := by rw [hdir]; simp
  refine ⟨?_, ?_, ?_⟩
  · intro t ht
    unfold processDirent
    rw [if_neg hbin, if_neg hnd, if_pos hlink, ht]
  · intro ht
    unfold processDirent
    rw [if_neg hbin, if_neg hnd, if_pos hlink, ht]
  · intro ep s hs st2
    rw [processScoped_cons, if_pos (by rw [hs]; simp)]
    rfl

/-- C9 witness: in `c9fs`, a top-level symlink dirent `p` is replaced by
its `realpath` target `X` before recording, while the same dirent under
the scope container is recorded at the joined path. -/
theorem c9_witness :
    processDirent c9fs "r/node_modules/@s" (initSt "r/node_modules")
      ⟨"p", false, true⟩ =
      enqueuePkg c9fs (initSt "r/node_modules") "X" ∧
    processScoped c9fs "r/node_modules/@s" (initSt "r/node_modules")
      [⟨"p", false, true⟩] =
      enqueuePkg c9fs (initSt "r/node_modules") "r/node_modules/@s/p" := by
  have h := c9_symlink_resolution c9fs "r/node_modules/@s"
    (initSt "r/node_modules") ⟨"p", false, true⟩ (by decide) rfl rfl
  refine ⟨h.1 "X" (by decide), ?_⟩
  have h2 := h.2.2 "r/node_modules/@s" ⟨"p", false, true⟩ rfl
    (initSt "r/node_modules")
  exact (by decide :
    pjoin "r/node_modules/@s" "p" = "r/node_modules/@s/p") ▸ h2

end LtsPin
